import Mathlib

/-!
# A kiosk for menus and orders: embedding and verification

Shallow embedding of `input.c`, `menu.c` and `kiosk.c`.

Conventions of the embedding.

* A C string is a `List Char`: the characters before the terminating NUL, each
  `Char` standing for the byte with the same code.  Plain `char` is signed (as
  with gcc on x86-64), so the byte `0xFF` compares equal to `EOF`.
* An `int` is an `Int`; the results of `+=`, `-=` and `*` are reduced to the
  32-bit two's-complement range by `toInt32`.
* A growable array is a `List` (its first `count` slots) together with its
  `capacity`; `count` is the length of the list.  The capacity is an `int`,
  and its doubling is reduced by `toInt32` like every product.
* A copy by `strcpy` between overlapping arrays is undefined: the embedding
  stops there with an outcome of its own and says nothing further.
* Text written to standard output is a `List Char`.  The text `printf`
  produces for a `float` under `%6.2f` is supplied by a formatter parameter;
  `floatFmt` is the formatter of the code, with `float` and `double` as the
  binary32 and binary64 formats of IEEE 754, rounded to nearest, ties to even.
* A command line is the C string held by the 100-byte buffer `input` after
  the read loop of `main`; the embedding describes lines that fit the buffer.
-/

namespace Kiosk

set_option exponentiation.threshold 2100
set_option maxRecDepth 100000

/-! ## Characters, C strings and the C library -/

/-- The `isspace` test of the C locale. -/
def isspace (c : Char) : Bool :=
  c = ' ' || c = '\t' || c = '\n' || c = '\x0b' || c = '\x0c' || c = '\r'

/-- The `isdigit` test. -/
def isdigit (c : Char) : Bool :=
  decide ('0'.toNat ≤ c.toNat) && decide (c.toNat ≤ '9'.toNat)

/-- The value `EOF` seen as a `char`: the byte `0xFF`. -/
def EOFchar : Char := '\xff'

/-- Largest `int`. -/
def INT_MAX : Int := 2147483647

/-- Smallest `int`. -/
def INT_MIN : Int := -2147483648

/-- Reduction of an integer to the 32-bit two's-complement range. -/
def toInt32 (v : Int) : Int :=
  (v + 2147483648) % 4294967296 - 2147483648

/-- Saturation to the range of `long`, as `strtol` does. -/
def clampLong (v : Int) : Int :=
  if v < -9223372036854775808 then -9223372036854775808
  else if 9223372036854775807 < v then 9223372036854775807
  else v

/-- The function `strcmp` on unsigned bytes.  The C standard fixes the sign of
the result only; it is modelled as `-1`, `0` or `1`.  The end of a string
comes before every character. -/
def strcmp : List Char → List Char → Int
  | [], [] => 0
  | [], _ :: _ => -1
  | _ :: _, [] => 1
  | a :: as, b :: bs => if a = b then strcmp as bs else if a.toNat < b.toNat then -1 else 1

/-- The token read by the directive `%s`: characters up to the next white space. -/
def scanWord : List Char → List Char
  | [] => []
  | c :: cs => if isspace c then [] else c :: scanWord cs

/-- Skipping of leading white space, as `%s` and `%d` do. -/
def skipSpace : List Char → List Char
  | [] => []
  | c :: cs => if isspace c then skipSpace cs else c :: cs

/-- The call `sscanf( s, "%s%n", buf, &pos )` on a zeroed `buf` and `pos = 0`:
the token stored and the number of characters consumed.  When nothing but
white space is left the conversion fails, and both stay as they were. -/
def scanStr (s : List Char) : List Char × Nat :=
  let rest := skipSpace s
  let w := scanWord rest
  if w = [] then ([], 0) else (w, (s.length - rest.length) + w.length)

/-- Value of a run of leading decimal digits, with the number of digits read. -/
def scanDigits : List Char → Nat → Nat → Nat × Nat
  | [], acc, n => (acc, n)
  | c :: cs, acc, n =>
    if isdigit c then scanDigits cs (acc * 10 + (c.toNat - '0'.toNat)) (n + 1) else (acc, n)

/-- An optionally signed decimal integer at the head of a string: its
mathematical value and its length in characters, or `none` without a digit. -/
def scanSigned (s : List Char) : Option (Int × Nat) :=
  match s with
  | '-' :: cs =>
    let r := scanDigits cs 0 0
    if r.2 = 0 then none else some (- (r.1 : Int), r.2 + 1)
  | '+' :: cs =>
    let r := scanDigits cs 0 0
    if r.2 = 0 then none else some ((r.1 : Int), r.2 + 1)
  | cs =>
    let r := scanDigits cs 0 0
    if r.2 = 0 then none else some ((r.1 : Int), r.2)

/-- The call `sscanf( s, "%d%n", &v, &pos )`: the `int` stored and the number
of characters consumed, or `none` when the conversion fails.  A value outside
the range of `int` is stored as glibc does, saturated to `long` and then
truncated. -/
def scanInt (s : List Char) : Option (Int × Nat) :=
  let rest := skipSpace s
  match scanSigned rest with
  | none => none
  | some (v, n) => some (toInt32 (clampLong v), (s.length - rest.length) + n)

/-- The function `atoi`: zero without a leading integer; out of range as in
glibc, where it is `(int) strtol( s, NULL, 10 )`. -/
def atoi (s : List Char) : Int :=
  match scanSigned (skipSpace s) with
  | none => 0
  | some (v, _) => toInt32 (clampLong v)

/-- The call `printf( fmt )` without arguments: ordinary characters are
copied, `%%` writes one `%`, and any other directive would read an argument
that was not passed, which is undefined (`none`). -/
def printfNoArgs : List Char → Option (List Char)
  | [] => some []
  | '%' :: '%' :: cs => (printfNoArgs cs).map (fun r => '%' :: r)
  | '%' :: _ => none
  | c :: cs => (printfNoArgs cs).map (fun r => c :: r)

/-- Left-justified field of width `w` (the directive `%-ws`). -/
def padRight (w : Nat) (s : List Char) : List Char :=
  s ++ List.replicate (w - s.length) ' '

/-- Right-justified field of width `w` (as in the directive `%8d`). -/
def padLeft (w : Nat) (s : List Char) : List Char :=
  List.replicate (w - s.length) ' ' ++ s

/-- Decimal text of an `int` (the directive `%d`). -/
def showInt : Int → List Char
  | Int.ofNat n => Nat.toDigits 10 n
  | Int.negSucc n => '-' :: Nat.toDigits 10 (n + 1)

/-- Insertion of one element before the first element it does not exceed. -/
def insertBy {α : Type} (cmp : α → α → Int) (x : α) : List α → List α
  | [] => [x]
  | y :: ys => if cmp x y ≤ 0 then x :: y :: ys else y :: insertBy cmp x ys

/-- The library function `qsort` with comparator `cmp`.  The C standard fixes
its result up to the order of elements that compare equal; it is modelled by
insertion sort. -/
def qsort {α : Type} (cmp : α → α → Int) (l : List α) : List α :=
  l.foldr (insertBy cmp) []

/-- The text `%6.2f` writes for a `float`.  The float is given by a list of
amounts in cents: it is the sum, accumulated in that order in `float`
arithmetic from `0.0`, of the quotients `c / 100.0`. -/
abbrev FloatFmt := List Int → List Char

/-! ## Floating point (`float`, `double`, `%6.2f`)

A finite `double` is an integer multiple of `2 ^ (-1074)`, a finite `float`
an integer multiple of `2 ^ (-149)`; both are held as that integer.  Every
operation returns the value nearest to the exact result among those with a
significand of 53 (`double`) or 24 (`float`) bits, ties going to the even
significand, and an infinity from `2 ^ 1024` (`double`) or `2 ^ 128`
(`float`) on. -/

/-- The quotient `n / d` rounded to the nearest natural number, ties to even. -/
def roundDiv (n d : Nat) : Nat :=
  if d < 2 * (n % d) ∨ (2 * (n % d) = d ∧ (n / d) % 2 = 1) then n / d + 1 else n / d

/-- The quotient `n / d` rounded to the nearest number with a significand of
`p` bits, ties to even: while the integer part of the quotient takes more
than `p` bits, the last bit is left to the rounding, which then is to a
multiple of 2, 4, ... (the quotient by the doubled `d`, doubled).  The integer
part is halved in every step, so `fuel` steps suffice when it is at most
`fuel`. -/
def roundToFuel (p : Nat) : Nat → Nat → Nat → Nat
  | 0, n, d => roundDiv n d
  | fuel + 1, n, d =>
    if n / d < 2 ^ p then roundDiv n d else 2 * roundToFuel p fuel n (2 * d)

/-- The quotient `n / d` rounded to the nearest number with a significand of
`p` bits, ties to even. -/
def roundTo (p n d : Nat) : Nat :=
  roundToFuel p n n d

/-- A value of type `float`: a finite value `n * 2 ^ (-149)`, an infinity, or
a NaN. -/
inductive CFloat where
  | finite (n : Int)
  | infinite (negative : Bool)
  | nan
  deriving DecidableEq, Repr

/-- The `float` that `c / 100.0` is stored as, for an `int` `c`: the `int` is
converted to `double` exactly, the division is done in `double` (its result
`d`, a multiple of `2 ^ (-1074)`), and the quotient is converted to `float`
(`f`, a multiple of `2 ^ (-149)`, which is `2 ^ 925` times `2 ^ (-1074)`). -/
def centsToFloat (c : Int) : CFloat :=
  let d := roundTo 53 (c.natAbs * 2 ^ 1074) 100
  if 2 ^ 2098 ≤ d then CFloat.infinite (decide (c < 0))
  else
    let f := roundTo 24 d (2 ^ 925)
    if 2 ^ 277 ≤ f then CFloat.infinite (decide (c < 0))
    else CFloat.finite (if c < 0 then - (f : Int) else (f : Int))

/-- The sum of two `float`s, computed in `float`. -/
def CFloat.add : CFloat → CFloat → CFloat
  | CFloat.finite a, CFloat.finite b =>
    let f := roundTo 24 (a + b).natAbs 1
    if 2 ^ 277 ≤ f then CFloat.infinite (decide (a + b < 0))
    else CFloat.finite (if a + b < 0 then - (f : Int) else (f : Int))
  | CFloat.nan, _ => CFloat.nan
  | _, CFloat.nan => CFloat.nan
  | CFloat.infinite s, CFloat.finite _ => CFloat.infinite s
  | CFloat.finite _, CFloat.infinite s => CFloat.infinite s
  | CFloat.infinite s, CFloat.infinite t => if s = t then CFloat.infinite s else CFloat.nan

/-- The text that `%6.2f` writes for a `float` (passed as a `double` of the
same value): the value rounded to the nearest multiple of `0.01`, ties to
even, with its sign, in a field of width 6.  A NaN that arises as the sum of
opposite infinities has its sign bit set on x86-64. -/
def printFloat : CFloat → List Char
  | CFloat.finite n =>
    padLeft 6 ((if n < 0 then ['-'] else [])
      ++ Nat.toDigits 10 (roundDiv (100 * n.natAbs) (2 ^ 149) / 100)
      ++ '.' :: [Nat.digitChar (roundDiv (100 * n.natAbs) (2 ^ 149) % 100 / 10),
                 Nat.digitChar (roundDiv (100 * n.natAbs) (2 ^ 149) % 10)])
  | CFloat.infinite negative => padLeft 6 (if negative then "-inf".toList else "inf".toList)
  | CFloat.nan => padLeft 6 "-nan".toList

/-- The formatter of the code: the amounts in cents are divided by `100.0`
and added up in `float`, from `0.0` on, and the sum is written under `%6.2f`. -/
def floatFmt : FloatFmt :=
  fun cs => printFloat (cs.foldl (fun s c => CFloat.add s (centsToFloat c)) (CFloat.finite 0))

/-! ## Data model (`menu.h`, `kiosk.c`) -/

/-- Initial number of Menu array elements. -/
def MENU_INITIAL_CAPACITY : Int := 5

/-- Number of characters for a MenuItem id ( 4 ) ( +1 for null terminator ). -/
def NUM_CHAR_ID : Nat := 5

/-- Maximum number of characters for a MenuItem name ( 20 ) ( +1 for null terminator ). -/
def MAX_NUM_CHAR_NAME : Nat := 21

/-- Maximum number of characters for a MenuItem category ( 15 ) ( +1 for null terminator ). -/
def MAX_NUM_CHAR_CATEGORY : Nat := 16

/-- Initial number of Order array elements. -/
def ORDER_INITIAL_CAPACITY : Int := 5

/-- A menu item (`struct MenuItem`). -/
structure MenuItem where
  id : List Char
  name : List Char
  category : List Char
  cost : Int
  deriving DecidableEq, Repr

/-- A menu (`struct Menu`); `count` is `list.length`. -/
structure Menu where
  list : List MenuItem
  capacity : Int
  deriving DecidableEq, Repr

/-- An order item (`struct OrderItem`); the pointer to the menu item is
modelled by the menu item itself, which never changes after loading. -/
structure OrderItem where
  menuItem : MenuItem
  quantity : Int
  deriving DecidableEq, Repr

/-- An order (`struct Order`); `count` is `list.length`. -/
structure Order where
  list : List OrderItem
  capacity : Int
  deriving DecidableEq, Repr

/-- The menu built by `makeMenu`. -/
def makeMenu : Menu := { list := [], capacity := MENU_INITIAL_CAPACITY }

/-- The order built at the start of `main`. -/
def initialOrder : Order := { list := [], capacity := ORDER_INITIAL_CAPACITY }

/-! ## Comparators and listings (`kiosk.c`, `menu.c`) -/

/-- Comparator by category, then id. -/
def listMenuComp (a b : MenuItem) : Int :=
  if strcmp a.category b.category ≠ 0 then strcmp a.category b.category
  else if strcmp a.id b.id ≠ 0 then strcmp a.id b.id
  else 0

/-- Comparator by id. -/
def listCategoryComp (a b : MenuItem) : Int :=
  strcmp a.id b.id

/-- Comparator by `cost * quantity` descending, then id. -/
def listOrderComp (a b : OrderItem) : Int :=
  if toInt32 (a.menuItem.cost * a.quantity) > toInt32 (b.menuItem.cost * b.quantity) then -1
  else if toInt32 (a.menuItem.cost * a.quantity) < toInt32 (b.menuItem.cost * b.quantity) then 1
  else strcmp a.menuItem.id b.menuItem.id

/-- Loop of `isCategory` over the two strings `p1` and `p2`. -/
def isCategoryLoop : List Char → List Char → Bool
  | p1, [] => decide (p1 = [])
  | [], _ :: _ => false
  | a :: p1, b :: p2 => if a ≠ b then false else isCategoryLoop p1 p2

/-- Whether a menu item belongs to the given category. -/
def isCategory (item : MenuItem) (str : List Char) : Bool :=
  isCategoryLoop item.category str

/-- Header line of the menu table. -/
def menuHeader : List Char :=
  "ID   Name                 Category        Cost\n".toList

/-- Header line of the order table. -/
def orderHeader : List Char :=
  "ID   Name                 Quantity Category        Cost\n".toList

/-- One row of the menu table. -/
def menuRow (fmt : FloatFmt) (m : MenuItem) : List Char :=
  padRight 5 m.id ++ padRight 21 m.name ++ padRight 16 m.category
    ++ '$' :: fmt [m.cost] ++ ['\n']

/-- The menu items `listMenuItems` prints rows for, in the order printed. -/
def menuRows (menu : Menu) (compare : MenuItem → MenuItem → Int)
    (test : MenuItem → List Char → Bool) (str : List Char) : List MenuItem :=
  if strcmp "list menu".toList str = 0 then qsort compare menu.list
  else (qsort compare menu.list).filter (fun m => test m str)

/-- The function `listMenuItems`: the menu, sorted in place, and the text printed. -/
def listMenuItems (fmt : FloatFmt) (menu : Menu) (compare : MenuItem → MenuItem → Int)
    (test : MenuItem → List Char → Bool) (str : List Char) : Menu × List Char :=
  let sorted : Menu := { menu with list := qsort compare menu.list }
  let title :=
    if strcmp "list menu".toList str = 0 then str ++ ['\n']
    else "list category ".toList ++ str ++ ['\n']
  (sorted, title ++ menuHeader
    ++ ((menuRows menu compare test str).map (menuRow fmt)).flatten ++ ['\n'])

/-- Amount in cents shown on the row of an order item: `cost * quantity` as an `int`. -/
def lineCents (it : OrderItem) : Int :=
  toInt32 (it.menuItem.cost * it.quantity)

/-- One row of the order table. -/
def orderRow (fmt : FloatFmt) (it : OrderItem) : List Char :=
  padRight 5 it.menuItem.id ++ padRight 21 it.menuItem.name
    ++ padLeft 8 (showInt it.quantity) ++ [' '] ++ padRight 16 it.menuItem.category
    ++ '$' :: fmt [lineCents it] ++ ['\n']

/-- The function `listOrderItems`: the order, sorted in place, and the text printed. -/
def listOrderItems (fmt : FloatFmt) (order : Order) (compare : OrderItem → OrderItem → Int) :
    Order × List Char :=
  let sorted : Order := { order with list := qsort compare order.list }
  let body :=
    if sorted.list.length = 0 then
      "Total                                              $  0.00\n\n".toList
    else
      ((sorted.list.map (orderRow fmt)).flatten)
        ++ "Total                                              $".toList
        ++ fmt (sorted.list.map lineCents) ++ "\n\n".toList
  (sorted, orderHeader ++ body)

/-! ## The command interpreter (`main` of `kiosk.c`) -/

/-- Command word `list`. -/
def cList : List Char := "list".toList

/-- Command word `add`. -/
def cAdd : List Char := "add".toList

/-- Command word `remove`. -/
def cRemove : List Char := "remove".toList

/-- Command word `quit`. -/
def cQuit : List Char := "quit".toList

/-- Second word `menu`. -/
def cMenu : List Char := "menu".toList

/-- Second word `category`. -/
def cCategory : List Char := "category".toList

/-- Second word `order`. -/
def cOrder : List Char := "order".toList

/-- The three words `input1`, `input2`, `input3` that the three `sscanf`
calls of `main` take from the line. -/
def tokenize (input : List Char) : List Char × List Char × List Char :=
  let r1 := scanStr input
  let r2 := scanStr (input.drop r1.2)
  let r3 := scanStr (input.drop (r1.2 + r2.2))
  (r1.1, r2.1, r3.1)

/-- Effect of one pass of the command loop: the menu and the order after it,
the text written (`none` when `printf( input )` is undefined), and the flag
`quit`. -/
structure Step where
  menu : Menu
  order : Order
  out : Option (List Char)
  quit : Bool
  deriving DecidableEq, Repr

/-- The text written at label `else1`. -/
def invalidText (input : List Char) : List Char :=
  input ++ ['\n'] ++ "Invalid command\n\n".toList

/-- The text written from label `print1` (and `print3`): `printf( input )`
and two newlines. -/
def echoText (input : List Char) : Option (List Char) :=
  (printfNoArgs input).map (fun r => r ++ "\n\n".toList)

/-- How the first loop of the add branch (over the order) ends. -/
inductive AddExit where
  | rejected
  | merged (list : List OrderItem)
  | absent
  deriving DecidableEq, Repr

/-- First loop of the add branch: look for `input2` among the order items. -/
def addOrderLoop (input2 input3 : List Char) : List OrderItem → AddExit
  | [] => AddExit.absent
  | it :: rest =>
    if strcmp input2 it.menuItem.id = 0 then
      if atoi input3 < 1 then AddExit.rejected
      else AddExit.merged ({ it with quantity := toInt32 (it.quantity + atoi input3) } :: rest)
    else
      match addOrderLoop input2 input3 rest with
      | AddExit.merged l => AddExit.merged (it :: l)
      | e => e

/-- Storing a new order item in slot `count`, then doubling the capacity when
the count has reached it. -/
def pushOrder (order : Order) (m : MenuItem) (q : Int) : Order :=
  { list := order.list ++ [{ menuItem := m, quantity := q }],
    capacity := if (order.list.length : Int) + 1 ≥ order.capacity then toInt32 (order.capacity * 2)
                else order.capacity }

/-- Second loop of the add branch, over the whole menu, with the flag `found`:
`none` when it leaves through `goto print2`. -/
def addMenuLoop (input2 input3 : List Char) : List MenuItem → Order → Bool → Option (Order × Bool)
  | [], order, found => some (order, found)
  | m :: rest, order, found =>
    if strcmp input2 m.id = 0 then
      if atoi input3 < 1 then none
      else addMenuLoop input2 input3 rest (pushOrder order m (atoi input3)) true
    else addMenuLoop input2 input3 rest order found

/-- How the loop of the remove branch ends. -/
inductive RemoveExit where
  | changed (list : List OrderItem)
  | rejected
  | fellThrough (found2 : Bool)
  deriving DecidableEq, Repr

/-- Loop of the remove branch with the flag `found2`. -/
def removeLoop (input2 input3 : List Char) : List OrderItem → Bool → RemoveExit
  | [], found2 => RemoveExit.fellThrough found2
  | it :: rest, _ =>
    if strcmp it.menuItem.id input2 = 0 then
      if atoi input3 = it.quantity then RemoveExit.changed rest
      else if atoi input3 < it.quantity then
        RemoveExit.changed ({ it with quantity := toInt32 (it.quantity - atoi input3) } :: rest)
      else RemoveExit.rejected
    else
      match removeLoop input2 input3 rest true with
      | RemoveExit.changed l => RemoveExit.changed (it :: l)
      | e => e

/-- The add branch of `main`. -/
def addBranch (menu : Menu) (order : Order) (input input2 input3 : List Char) : Step :=
  match addOrderLoop input2 input3 order.list with
  | AddExit.rejected =>
    { menu := menu, order := order, out := some ("Invalid command\n".toList ++ ['\n']),
      quit := false }
  | AddExit.merged l =>
    { menu := menu, order := { order with list := l }, out := echoText input, quit := false }
  | AddExit.absent =>
    match addMenuLoop input2 input3 menu.list order false with
    | none =>
      { menu := menu, order := order, out := some ("Invalid command".toList ++ ['\n']),
        quit := false }
    | some (order1, found) =>
      if found then { menu := menu, order := order1, out := echoText input, quit := false }
      else { menu := menu, order := order1, out := some (invalidText input), quit := false }

/-- The remove branch of `main`. -/
def removeBranch (menu : Menu) (order : Order) (input input2 input3 : List Char) : Step :=
  match removeLoop input2 input3 order.list false with
  | RemoveExit.changed l =>
    { menu := menu, order := { order with list := l }, out := echoText input, quit := false }
  | RemoveExit.rejected =>
    { menu := menu, order := order, out := some ("Invalid command\n".toList ++ ['\n']),
      quit := false }
  | RemoveExit.fellThrough found2 =>
    if found2 then { menu := menu, order := order, out := echoText input, quit := false }
    else { menu := menu, order := order, out := some (invalidText input), quit := false }

/-- One pass of the command loop of `main`, from label `out` on: the line
`input` is split into words and dispatched.  The variable `itemRemoved` only
steers the frees at the end of `main` and is left out. -/
def processLine (fmt : FloatFmt) (menu : Menu) (order : Order) (input : List Char) : Step :=
  let input1 := (tokenize input).1
  let input2 := (tokenize input).2.1
  let input3 := (tokenize input).2.2
  if strcmp input1 cList = 0 ∧ strcmp input2 cMenu = 0 ∧ input3 ≠ [] then
    { menu := menu, order := order, out := some (invalidText input), quit := false }
  else if strcmp input1 cList = 0 then
    if strcmp input2 cMenu = 0 then
      let r := listMenuItems fmt menu listMenuComp isCategory input
      { menu := r.1, order := order, out := some r.2, quit := false }
    else if strcmp input2 cCategory = 0 then
      let r := listMenuItems fmt menu listCategoryComp isCategory input3
      { menu := r.1, order := order, out := some r.2, quit := false }
    else if strcmp input2 cOrder = 0 then
      let r := listOrderItems fmt order listOrderComp
      { menu := menu, order := r.1, out := some (input ++ ['\n'] ++ r.2), quit := false }
    else
      { menu := menu, order := order, out := some "Invalid command\n".toList, quit := false }
  else if strcmp input1 cAdd = 0 then addBranch menu order input input2 input3
  else if strcmp input1 cRemove = 0 then removeBranch menu order input input2 input3
  else if strcmp input1 cQuit = 0 then
    { menu := menu, order := order, out := some "quit\n".toList, quit := true }
  else
    { menu := menu, order := order, out := some (invalidText input), quit := false }

/-- The menu and the order after the command loop has taken the given lines
in turn; the loop stops after a `quit`. -/
def runLines (fmt : FloatFmt) (menu : Menu) (order : Order) : List (List Char) → Menu × Order
  | [] => (menu, order)
  | line :: rest =>
    if (processLine fmt menu order line).quit then
      ((processLine fmt menu order line).menu, (processLine fmt menu order line).order)
    else
      runLines fmt (processLine fmt menu order line).menu (processLine fmt menu order line).order rest

/-! ## Reading lines and loading menu files (`input.c`, `menu.c`) -/

/-- The C string that an array of bytes holds: its bytes before the first NUL. -/
def cstr (s : List Char) : List Char := s.takeWhile (fun c => c ≠ '\x00')

/-- The function `readLine` on the unread part of a stream: the line returned
and the unread part left, or `none` for the `NULL` result at end of stream.
The measuring loop counts the characters before the next newline or the end
of the stream, `numChar - 1` of them are copied, and the newline is consumed
only when there is one.  The line returned is a C string: it ends at the
first NUL among the bytes copied. -/
def readLine (s : List Char) : Option (List Char × List Char) :=
  if s = [] then none
  else
    let counted := (s.takeWhile (fun c => c ≠ '\n')).length
    let addNL := decide (s.drop counted ≠ [])
    let numChar := if addNL then counted + 1 else counted
    some (cstr (s.take (numChar - 1)), s.drop (numChar - 1 + (if addNL then 1 else 0)))

/-- The loop that copies the name, started at index `i`: `none` for the exit
taken when index `MAX_NUM_CHAR_NAME - 1` is reached with characters left. -/
def nameLoop : List Char → Nat → Option (List Char)
  | [], _ => some []
  | c :: cs, i =>
    if c ≠ '\n' ∧ c ≠ EOFchar ∧ i < MAX_NUM_CHAR_NAME then
      if i = MAX_NUM_CHAR_NAME - 1 then none
      else (nameLoop cs (i + 1)).map (fun r => c :: r)
    else some []

/-- The number of characters of the line that the id, category and cost
fields take, `pos1 + pos2 + pos3` (`pos3` is zero when the cost does not
convert). -/
def copyOffset (str : List Char) : Nat :=
  let pos1 := (scanStr str).2
  let pos2 := (scanStr (str.drop pos1)).2
  let pos3 := match scanInt (str.drop (pos1 + pos2)) with
    | none => 0
    | some r => r.2
  pos1 + pos2 + pos3

/-- The call `strcpy( str, str + pos1 + pos2 + pos3 )` copies between
overlapping arrays: the tail of the line with its terminating NUL is longer
than the offset it is moved by, so that a byte written lies among the bytes
still to be read. -/
def copyOverlaps (str : List Char) : Prop :=
  copyOffset str < (str.drop (copyOffset str)).length + 1

instance decCopyOverlaps (str : List Char) : Decidable (copyOverlaps str) :=
  inferInstanceAs (Decidable (copyOffset str < (str.drop (copyOffset str)).length + 1))

/-- What is left of the line for the name: the text after the id, category
and cost fields, which a `strcpy` that does not overlap moves to the front of
the line, without its leading spaces. -/
def nameField (str : List Char) : List Char :=
  let pos1 := (scanStr str).2
  let pos2 := (scanStr (str.drop pos1)).2
  let pos3 := match scanInt (str.drop (pos1 + pos2)) with
    | none => 0
    | some r => r.2
  (str.drop (pos1 + pos2 + pos3)).dropWhile (fun c => c = ' ')

/-- How the body of the loop of `readMenuItems` ends for one line. -/
inductive Parsed where
  | item (it : MenuItem)
  | invalid
  | undefinedCopy
  deriving DecidableEq, Repr

/-- The body of the loop of `readMenuItems` for one line `str` that builds the
new menu item: `Parsed.invalid` stands for the exit with `Invalid menu file`,
`Parsed.undefinedCopy` for a `strcpy` between overlapping arrays.  The
buffers are zeroed, so a byte is NUL exactly from the end of the token on
(`get?` is `none` there).  The source repeats the test of the id
`NUM_CHAR_ID` times, each time with the same outcome. -/
def parseRecord (menu : Menu) (str : List Char) : Parsed :=
  let id := (scanStr str).1
  let pos1 := (scanStr str).2
  if id.get? 0 = none ∨ id.get? 1 = none ∨ id.get? 2 = none ∨ id.get? 3 = none
      ∨ id.get? 4 ≠ none then Parsed.invalid
  else if menu.list.any (fun m => decide (strcmp id m.id = 0)) then Parsed.invalid
  else
    let category := (scanStr (str.drop pos1)).1
    let pos2 := (scanStr (str.drop pos1)).2
    let good := (List.range (MAX_NUM_CHAR_CATEGORY + 1)).any (fun i => decide (category.get? i = none))
    if ¬ good then Parsed.invalid
    else
      let cost := match scanInt (str.drop (pos1 + pos2)) with
        | none => 0
        | some r => r.1
      if cost ≤ 0 then Parsed.invalid
      else if copyOverlaps str then Parsed.undefinedCopy
      else
        let rest := nameField str
        if rest.head? = some '\n' ∨ rest.head? = some EOFchar then Parsed.invalid
        else
          match nameLoop rest 0 with
          | none => Parsed.invalid
          | some name =>
            Parsed.item { id := id, name := name, category := category, cost := cost }

/-- The capacity check at the head of the loop of `readMenuItems`. -/
def growMenu (menu : Menu) : Menu :=
  if (menu.list.length : Int) ≥ menu.capacity then
    { menu with capacity := toInt32 (menu.capacity * 2) }
  else menu

/-- How `readMenuItems` ends: with the menu loaded, with the exit
`Invalid menu file`, or at a `strcpy` between overlapping arrays. -/
inductive Loaded where
  | menu (m : Menu)
  | invalidMenuFile
  | undefinedCopy
  deriving DecidableEq, Repr

/-- The loop of `readMenuItems` on the unread part of the file, for at most
`fuel` calls of `readLine`; `none` when the fuel does not suffice. -/
def readMenuLoop : Nat → Menu → List Char → Option Loaded
  | 0, _, _ => none
  | fuel + 1, menu, s =>
    match readLine s with
    | none => some (Loaded.menu menu)
    | some (str, rest) =>
      match parseRecord (growMenu menu) str with
      | Parsed.invalid => some Loaded.invalidMenuFile
      | Parsed.undefinedCopy => some Loaded.undefinedCopy
      | Parsed.item item =>
        readMenuLoop fuel { (growMenu menu) with list := (growMenu menu).list ++ [item] } rest

/-- The function `readMenuItems` on a file that could be opened, given by its
content.  Every pass that does not exit consumes a character, so one call of
`readLine` more than there are characters suffices. -/
def readMenuItems (menu : Menu) (content : List Char) : Option Loaded :=
  readMenuLoop (content.length + 1) menu content

/-! ## Notions used in the statements -/

/-- An integer that an `int` can hold. -/
def inIntRange (v : Int) : Prop := INT_MIN ≤ v ∧ v ≤ INT_MAX

/-- The quantity sum of the command `input` stays in the range of `int`: for
every order item the command names, the sum that `add` forms, and the
difference that `remove` forms, is an `int`. -/
def sumsInRange (order : Order) (input : List Char) : Prop :=
  ∀ it ∈ order.list, it.menuItem.id = (tokenize input).2.1 →
    ((tokenize input).1 = cAdd → inIntRange (it.quantity + atoi (tokenize input).2.2))
    ∧ ((tokenize input).1 = cRemove → inIntRange (it.quantity - atoi (tokenize input).2.2))

/-- Every command of a run, taken in the state it meets, keeps its quantity
sum in the range of `int`. -/
def sumsInRangeRun (fmt : FloatFmt) (menu : Menu) (order : Order) : List (List Char) → Prop
  | [] => True
  | line :: rest =>
    sumsInRange order line
    ∧ ((processLine fmt menu order line).quit = false →
        sumsInRangeRun fmt (processLine fmt menu order line).menu
          (processLine fmt menu order line).order rest)

instance decInIntRange (v : Int) : Decidable (inIntRange v) :=
  inferInstanceAs (Decidable (INT_MIN ≤ v ∧ v ≤ INT_MAX))

instance decSumsInRange (order : Order) (input : List Char) : Decidable (sumsInRange order input) :=
  inferInstanceAs (Decidable (∀ it ∈ order.list, it.menuItem.id = (tokenize input).2.1 →
    ((tokenize input).1 = cAdd → inIntRange (it.quantity + atoi (tokenize input).2.2))
    ∧ ((tokenize input).1 = cRemove → inIntRange (it.quantity - atoi (tokenize input).2.2))))

/-- Decision procedure for `sumsInRangeRun`, by recursion on the lines. -/
def decSumsInRangeRun (fmt : FloatFmt) :
    (menu : Menu) → (order : Order) → (lines : List (List Char)) →
      Decidable (sumsInRangeRun fmt menu order lines)
  | _, _, [] => isTrue trivial
  | menu, order, line :: rest =>
    have := decSumsInRangeRun fmt (processLine fmt menu order line).menu
      (processLine fmt menu order line).order rest
    inferInstanceAs (Decidable (sumsInRange order line
      ∧ ((processLine fmt menu order line).quit = false →
          sumsInRangeRun fmt (processLine fmt menu order line).menu
            (processLine fmt menu order line).order rest)))

instance instDecSumsInRangeRun (fmt : FloatFmt) (menu : Menu) (order : Order)
    (lines : List (List Char)) : Decidable (sumsInRangeRun fmt menu order lines) :=
  decSumsInRangeRun fmt menu order lines

/-- The possible effects of one command, with command word `cmd`, id word `X`
and quantity word `tok`, on the list `l` of order items. -/
inductive OrderEffect (cmd X tok : List Char) (menuList : List MenuItem) (l : List OrderItem) :
    List OrderItem → Prop where
  | perm (l1 : List OrderItem) (h : l1.Perm l) : OrderEffect cmd X tok menuList l l1
  | merged (hc : cmd = cAdd) (pre post : List OrderItem) (it : OrderItem)
      (hl : l = pre ++ it :: post) (hit : it.menuItem.id = X) (hq : 1 ≤ atoi tok) :
      OrderEffect cmd X tok menuList l
        (pre ++ { it with quantity := toInt32 (it.quantity + atoi tok) } :: post)
  | appended (hc : cmd = cAdd) (hfresh : ∀ it ∈ l, it.menuItem.id ≠ X) (hq : 1 ≤ atoi tok) :
      OrderEffect cmd X tok menuList l
        (l ++ (menuList.filter (fun m => decide (m.id = X))).map
          (fun m => { menuItem := m, quantity := atoi tok }))
  | erased (hc : cmd = cRemove) (pre post : List OrderItem) (it : OrderItem)
      (hl : l = pre ++ it :: post) (hit : it.menuItem.id = X) (hq : atoi tok = it.quantity) :
      OrderEffect cmd X tok menuList l (pre ++ post)
  | decremented (hc : cmd = cRemove) (pre post : List OrderItem) (it : OrderItem)
      (hl : l = pre ++ it :: post) (hit : it.menuItem.id = X) (hq : atoi tok < it.quantity) :
      OrderEffect cmd X tok menuList l
        (pre ++ { it with quantity := toInt32 (it.quantity - atoi tok) } :: post)

/-- The content of a file whose lines are `ls`, each ended by a newline. -/
def joinLines (ls : List (List Char)) : List Char :=
  (ls.map (fun l => l ++ ['\n'])).flatten

/-- The integer that a quantity word denotes: the mathematical value of its
leading optionally signed decimal integer, `none` when it has none. -/
def tokenValue (tok : List Char) : Option Int :=
  match scanSigned (skipSpace tok) with
  | none => none
  | some r => some r.1

/-- An amount of `t` cents in dollars, to two decimal places, in a field of
width 6: the text that stands for the exact quotient `t / 100`. -/
def showCents (t : Int) : List Char :=
  padLeft 6 ((if t < 0 then ['-'] else [])
    ++ Nat.toDigits 10 (t.natAbs / 100)
    ++ '.' :: [Nat.digitChar (t.natAbs % 100 / 10), Nat.digitChar (t.natAbs % 10)])

/-! ## Sample data -/

/-- The menu item of the record `A001 Drinks 150 Cola`. -/
def cola : MenuItem :=
  { id := "A001".toList, name := "Cola".toList, category := "Drinks".toList, cost := 150 }

/-- The menu item of the record `B002 Drinks 120 Tea`. -/
def tea : MenuItem :=
  { id := "B002".toList, name := "Tea".toList, category := "Drinks".toList, cost := 120 }

/-- A menu with one item. -/
def colaMenu : Menu := { list := [cola], capacity := 5 }

/-- A menu with two items. -/
def twoMenu : Menu := { list := [cola, tea], capacity := 5 }

/-- The menu item of the record `C003 Snacks 200 Chips`. -/
def chips : MenuItem :=
  { id := "C003".toList, name := "Chips".toList, category := "Snacks".toList, cost := 200 }

/-- A menu with three items, not in the order of their ids. -/
def threeMenu : Menu := { list := [tea, chips, cola], capacity := 5 }

/-- An order holding five of `cola`. -/
def fiveColas : Order := { list := [{ menuItem := cola, quantity := 5 }], capacity := 5 }

/-- A formatter for the sample runs; no statement depends on its text. -/
def blankFmt : FloatFmt := fun _ => "  0.00".toList

/-- A sample session. -/
def session : List (List Char) :=
  ["add B002 1".toList, "add A001 2".toList, "list menu".toList, "add B002 4".toList,
   "remove A001 2".toList, "list order".toList, "remove B002 -3".toList, "bogus".toList]

/-- A second sample session. -/
def shortSession : List (List Char) :=
  ["add A001 2".toList, "add A001 5".toList, "remove A001 -3".toList, "remove A001 9".toList]

/-- A record without a name. -/
def noNameLine : List Char := "A001 Drinks 150".toList

/-- A record whose category has 16 characters. -/
def longCategoryLine : List Char := "A001 ABCDEFGHIJKLMNOP 150 Cola".toList

/-! ## Notions used in the statements on listings, echo and files -/

/-- The line written for a menu item: `<id> <category> <cost> <name>`. -/
def recordLine (it : MenuItem) : List Char :=
  it.id ++ ' ' :: (it.category ++ ' ' :: (showInt it.cost ++ ' ' :: it.name))

/-- The file written for a list of menu items, one newline-ended line each. -/
def menuFile (items : List MenuItem) : List Char :=
  joinLines (items.map recordLine)

/-- A menu item as a menu file is meant to hold it: an id of exactly 4
characters and a category of 1 to 15 characters, none of them white space, a
cost that is a positive `int`, and a name of 1 to 20 characters that does not
begin with a space and holds no newline. -/
def wellFormedItem (it : MenuItem) : Prop :=
  it.id.length = 4 ∧ (∀ c ∈ it.id, isspace c = false)
  ∧ 1 ≤ it.category.length ∧ it.category.length ≤ 15 ∧ (∀ c ∈ it.category, isspace c = false)
  ∧ 0 < it.cost ∧ it.cost ≤ INT_MAX
  ∧ 1 ≤ it.name.length ∧ it.name.length ≤ 20 ∧ it.name.head? ≠ some ' '
  ∧ '\n' ∉ it.name

/-- A well-formed menu item whose name does not hold the byte `0xFF`, whose
id, category and name hold no NUL, and whose name has at most as many
characters as the category and the digits of the cost together and 4 more:
then the record written for the item is moved to the front of its line by a
copy that does not overlap. -/
def validItem (it : MenuItem) : Prop :=
  wellFormedItem it ∧ EOFchar ∉ it.name
  ∧ '\x00' ∉ it.id ∧ '\x00' ∉ it.category ∧ '\x00' ∉ it.name
  ∧ it.name.length ≤ 4 + it.category.length + (showInt it.cost).length

instance decWellFormedItem (it : MenuItem) : Decidable (wellFormedItem it) :=
  inferInstanceAs (Decidable (it.id.length = 4 ∧ (∀ c ∈ it.id, isspace c = false)
    ∧ 1 ≤ it.category.length ∧ it.category.length ≤ 15 ∧ (∀ c ∈ it.category, isspace c = false)
    ∧ 0 < it.cost ∧ it.cost ≤ INT_MAX
    ∧ 1 ≤ it.name.length ∧ it.name.length ≤ 20 ∧ it.name.head? ≠ some ' '
    ∧ '\n' ∉ it.name))

instance decValidItem (it : MenuItem) : Decidable (validItem it) :=
  inferInstanceAs (Decidable (wellFormedItem it ∧ EOFchar ∉ it.name
    ∧ '\x00' ∉ it.id ∧ '\x00' ∉ it.category ∧ '\x00' ∉ it.name
    ∧ it.name.length ≤ 4 + it.category.length + (showInt it.cost).length))

/-- The lines that repeated calls of `readLine` return until the end-of-input
result, when that result comes within `fuel` calls; `none` when it does not. -/
def readAll : Nat → List Char → Option (List (List Char))
  | 0, _ => none
  | fuel + 1, s =>
    match readLine s with
    | none => some []
    | some r => (readAll fuel r.2).map (fun ls => r.1 :: ls)

/-! ## More sample data -/

/-- An order holding two of `cola` and five of `tea`. -/
def twoLines : Order :=
  { list := [{ menuItem := cola, quantity := 2 }, { menuItem := tea, quantity := 5 }],
    capacity := 5 }

/-- An order holding two of `cola`. -/
def twoColas : Order := { list := [{ menuItem := cola, quantity := 2 }], capacity := 5 }

/-- The menu of the records `A001 Drinks 13107201 Cola` and
`B002 Drinks 13107201 Tea`. -/
def richMenu : Menu :=
  { list := [{ id := "A001".toList, name := "Cola".toList, category := "Drinks".toList,
               cost := 13107201 },
             { id := "B002".toList, name := "Tea".toList, category := "Drinks".toList,
               cost := 13107201 }],
    capacity := 5 }

/-- The order holding one of each item of `richMenu`. -/
def richOrder : Order :=
  { list := richMenu.list.map (fun m => { menuItem := m, quantity := 1 }), capacity := 5 }

/-! ## Notions used in the statements on capacities -/

/-- The capacity invariant of the order: the count is below the capacity,
and the capacity is 5 times a power of two. -/
def orderInv (o : Order) : Prop :=
  (o.list.length : Int) < o.capacity ∧ ∃ k : Nat, o.capacity = 5 * 2 ^ k

/-- The capacity invariant of the menu: the count is at most the capacity,
and the capacity is 5 times a power of two. -/
def menuInv (m : Menu) : Prop :=
  (m.list.length : Int) ≤ m.capacity ∧ ∃ k : Nat, m.capacity = 5 * 2 ^ k

/-- The largest number `5 * 2 ^ k` that an `int` holds, `5 * 2 ^ 28`: the
capacity that cannot be doubled. -/
def CAPACITY_LIMIT : Nat := 1342177280

/-- Every state that a run passes through, before and after each of its
commands, holds fewer than `CAPACITY_LIMIT` order items. -/
def smallRun (fmt : FloatFmt) (menu : Menu) (order : Order) : List (List Char) → Prop
  | [] => order.list.length < CAPACITY_LIMIT
  | line :: rest =>
    order.list.length < CAPACITY_LIMIT
    ∧ ((processLine fmt menu order line).quit = false →
        smallRun fmt (processLine fmt menu order line).menu
          (processLine fmt menu order line).order rest)

/-- Decision procedure for `smallRun`, by recursion on the lines. -/
def decSmallRun (fmt : FloatFmt) :
    (menu : Menu) → (order : Order) → (lines : List (List Char)) →
      Decidable (smallRun fmt menu order lines)
  | _, order, [] => inferInstanceAs (Decidable (order.list.length < CAPACITY_LIMIT))
  | menu, order, line :: rest =>
    have := decSmallRun fmt (processLine fmt menu order line).menu
      (processLine fmt menu order line).order rest
    inferInstanceAs (Decidable (order.list.length < CAPACITY_LIMIT
      ∧ ((processLine fmt menu order line).quit = false →
          smallRun fmt (processLine fmt menu order line).menu
            (processLine fmt menu order line).order rest)))

instance instDecSmallRun (fmt : FloatFmt) (menu : Menu) (order : Order)
    (lines : List (List Char)) : Decidable (smallRun fmt menu order lines) :=
  decSmallRun fmt menu order lines

/-- The id of the `i`-th record of the large file: the digits of `i` to the
base 192, written with the bytes 33 to 224. -/
def bigId (i : Nat) : List Char :=
  [Char.ofNat (33 + i / 7077888), Char.ofNat (33 + i / 36864 % 192),
   Char.ofNat (33 + i / 192 % 192), Char.ofNat (33 + i % 192)]

/-- The `i`-th item of the large file; its record is `<id> c 1 x`. -/
def bigItem (i : Nat) : MenuItem :=
  { id := bigId i, name := "x".toList, category := "c".toList, cost := 1 }

/-- The items of the large file: one more than `CAPACITY_LIMIT`. -/
def bigItems : List MenuItem :=
  (List.range (CAPACITY_LIMIT + 1)).map bigItem

/-- The menus at the head of the passes of the loop of `readMenuItems`, in
order.  In each pass the capacity check runs on that menu (`growMenu`) and
slot `count` of the list is then written. -/
def loadPasses : Nat → Menu → List Char → List Menu
  | 0, _, _ => []
  | fuel + 1, menu, s =>
    match readLine s with
    | none => []
    | some (str, rest) =>
      menu :: (match parseRecord (growMenu menu) str with
        | Parsed.item item =>
          loadPasses fuel { (growMenu menu) with list := (growMenu menu).list ++ [item] } rest
        | _ => [])

/-! ## Basic facts -/

theorem strcmp_eq_zero_iff (a b : List Char) : strcmp a b = 0 ↔ a = b := by
  induction a generalizing b with
  | nil => cases b <;> simp [strcmp]
  | cons c cs ih =>
    cases b with
    | nil => simp [strcmp]
    | cons d ds =>
      simp only [strcmp]
      by_cases hcd : c = d
      · simp [hcd, ih]
      · simp only [hcd, if_false]
        split <;> simp [hcd]

theorem toInt32_of_inRange (v : Int) (h1 : INT_MIN ≤ v) (h2 : v ≤ INT_MAX) : toInt32 v = v := by
  unfold INT_MIN at h1; unfold INT_MAX at h2
  unfold toInt32; omega

theorem toInt32_range (v : Int) : INT_MIN ≤ toInt32 v ∧ toInt32 v ≤ INT_MAX := by
  unfold INT_MIN INT_MAX toInt32; omega

theorem processLine_add (fmt : FloatFmt) (menu : Menu) (order : Order) (input X tok : List Char)
    (h : tokenize input = (cAdd, X, tok)) :
    processLine fmt menu order input = addBranch menu order input X tok := by
  unfold processLine
  rw [h]
  simp only [strcmp_eq_zero_iff]
  have h1 : cAdd ≠ cList := by decide
  simp [h1]

theorem processLine_remove (fmt : FloatFmt) (menu : Menu) (order : Order) (input X tok : List Char)
    (h : tokenize input = (cRemove, X, tok)) :
    processLine fmt menu order input = removeBranch menu order input X tok := by
  unfold processLine
  rw [h]
  simp only [strcmp_eq_zero_iff]
  have h1 : cRemove ≠ cList := by decide
  have h2 : cRemove ≠ cAdd := by decide
  simp [h1, h2]

/-! ## The loops of the add and remove branches -/

theorem addOrderLoop_absent (X tok : List Char) (l : List OrderItem)
    (h : ∀ it ∈ l, it.menuItem.id ≠ X) : addOrderLoop X tok l = AddExit.absent := by
  induction l with
  | nil => rfl
  | cons it rest ih =>
    have h1 : X ≠ it.menuItem.id := fun e => h it (List.mem_cons_self _ _) e.symm
    have h2 := ih (fun j hj => h j (List.mem_cons_of_mem _ hj))
    simp [addOrderLoop, strcmp_eq_zero_iff, h1, h2]

theorem addOrderLoop_found (X tok : List Char) (pre post : List OrderItem) (it : OrderItem)
    (hpre : ∀ p ∈ pre, p.menuItem.id ≠ X) (hit : it.menuItem.id = X) :
    addOrderLoop X tok (pre ++ it :: post) =
      if atoi tok < 1 then AddExit.rejected
      else AddExit.merged (pre ++ { it with quantity := toInt32 (it.quantity + atoi tok) } :: post) := by
  induction pre with
  | nil => simp [addOrderLoop, strcmp_eq_zero_iff, hit]
  | cons p rest ih =>
    have h1 : X ≠ p.menuItem.id := fun e => hpre p (List.mem_cons_self _ _) e.symm
    have h2 := ih (fun j hj => hpre j (List.mem_cons_of_mem _ hj))
    rw [List.cons_append, addOrderLoop, if_neg (by simpa [strcmp_eq_zero_iff] using h1), h2]
    by_cases hq : atoi tok < 1 <;> simp [hq]

theorem addMenuLoop_rejected (X tok : List Char) (h : atoi tok < 1) (l : List MenuItem)
    (order : Order) (found : Bool) :
    addMenuLoop X tok l order found = none ∨ addMenuLoop X tok l order found = some (order, found) := by
  induction l with
  | nil => right; rfl
  | cons m rest ih =>
    by_cases hm : X = m.id
    · left; simp [addMenuLoop, strcmp_eq_zero_iff, hm, h]
    · simpa [addMenuLoop, strcmp_eq_zero_iff, hm] using ih

/-- The order items the second loop of the add branch appends. -/
theorem addMenuLoop_accepted (X tok : List Char) (h : 1 ≤ atoi tok) (l : List MenuItem)
    (order : Order) (found : Bool) :
    ∃ cap, addMenuLoop X tok l order found =
      some ({ list := order.list ++ (l.filter (fun m => decide (m.id = X))).map
                (fun m => { menuItem := m, quantity := atoi tok }),
              capacity := cap },
            found || l.any (fun m => decide (m.id = X))) := by
  induction l generalizing order found with
  | nil => exact ⟨order.capacity, by simp [addMenuLoop]⟩
  | cons m rest ih =>
    by_cases hm : X = m.id
    · have hq : ¬ atoi tok < 1 := by omega
      obtain ⟨cap, hc⟩ := ih (pushOrder order m (atoi tok)) true
      refine ⟨cap, ?_⟩
      simp only [addMenuLoop, strcmp_eq_zero_iff, hm, if_true, hq, if_false]
      rw [← hm, hc]
      simp [pushOrder, hm]
    · obtain ⟨cap, hc⟩ := ih order found
      refine ⟨cap, ?_⟩
      have hm2 : ¬ m.id = X := fun e => hm e.symm
      simp [addMenuLoop, strcmp_eq_zero_iff, hm, hc, hm2]

theorem filter_id_of_nodup (X : List Char) (l : List MenuItem) (m : MenuItem)
    (hnd : (l.map MenuItem.id).Nodup) (hm : m ∈ l) (hX : m.id = X) :
    l.filter (fun m => decide (m.id = X)) = [m] := by
  induction l with
  | nil => cases hm
  | cons a rest ih =>
    rw [List.map_cons, List.nodup_cons] at hnd
    rcases List.mem_cons.mp hm with rfl | hin
    · have : rest.filter (fun m => decide (m.id = X)) = [] := by
        rw [List.filter_eq_nil_iff]
        intro b hb
        simp only [decide_eq_true_eq]
        intro hbX
        exact hnd.1 (List.mem_map.mpr ⟨b, hb, by rw [hbX, hX]⟩)
      simp [List.filter_cons, hX, this]
    · have ha : a.id ≠ X := by
        intro haX
        exact hnd.1 (List.mem_map.mpr ⟨m, hin, by rw [hX, haX]⟩)
      simp [List.filter_cons, ha, ih hnd.2 hin]

theorem removeLoop_absent (X tok : List Char) (l : List OrderItem) (found2 : Bool)
    (h : ∀ it ∈ l, it.menuItem.id ≠ X) :
    removeLoop X tok l found2 = RemoveExit.fellThrough (found2 || decide (l ≠ [])) := by
  induction l generalizing found2 with
  | nil => simp [removeLoop]
  | cons it rest ih =>
    have h1 : it.menuItem.id ≠ X := h it (List.mem_cons_self _ _)
    have h2 := ih true (fun j hj => h j (List.mem_cons_of_mem _ hj))
    simp [removeLoop, strcmp_eq_zero_iff, h1, h2]

theorem removeLoop_found (X tok : List Char) (pre post : List OrderItem) (it : OrderItem)
    (found2 : Bool) (hpre : ∀ p ∈ pre, p.menuItem.id ≠ X) (hit : it.menuItem.id = X) :
    removeLoop X tok (pre ++ it :: post) found2 =
      if atoi tok = it.quantity then RemoveExit.changed (pre ++ post)
      else if atoi tok < it.quantity then
        RemoveExit.changed (pre ++ { it with quantity := toInt32 (it.quantity - atoi tok) } :: post)
      else RemoveExit.rejected := by
  induction pre generalizing found2 with
  | nil => simp [removeLoop, strcmp_eq_zero_iff, hit]
  | cons p rest ih =>
    have h1 : p.menuItem.id ≠ X := hpre p (List.mem_cons_self _ _)
    have h2 := ih true (fun j hj => hpre j (List.mem_cons_of_mem _ hj))
    rw [List.cons_append, removeLoop, if_neg (by simpa [strcmp_eq_zero_iff] using h1), h2]
    split_ifs <;> rfl

theorem addOrderLoop_bad_quantity (X tok : List Char) (h : atoi tok < 1) (l : List OrderItem) :
    addOrderLoop X tok l = AddExit.rejected ∨ addOrderLoop X tok l = AddExit.absent := by
  induction l with
  | nil => right; rfl
  | cons it rest ih =>
    by_cases hm : X = it.menuItem.id
    · left; simp [addOrderLoop, strcmp_eq_zero_iff, hm, h]
    · rw [addOrderLoop, if_neg (by simpa [strcmp_eq_zero_iff] using hm)]
      rcases ih with h1 | h1 <;> simp [h1]

theorem atoi_of_no_value (tok : List Char) (h : tokenValue tok = none) : atoi tok = 0 := by
  unfold tokenValue at h
  unfold atoi
  split at h
  · rename_i hs; rw [hs]
  · cases h

theorem atoi_of_value (tok : List Char) (v : Int) (h : tokenValue tok = some v)
    (hv : inIntRange v) : atoi tok = v := by
  unfold tokenValue at h
  unfold atoi
  split at h
  · cases h
  · rename_i r hs
    cases h
    rw [hs]
    obtain ⟨h1, h2⟩ := hv
    unfold INT_MIN at h1
    unfold INT_MAX at h2
    show toInt32 (clampLong r.1) = r.1
    unfold toInt32 clampLong
    split_ifs <;> omega

theorem invalidText_mentions_invalid (input : List Char) :
    "Invalid command".toList <:+: invalidText input :=
  ⟨input ++ ['\n'], "\n\n".toList, by simp [invalidText]⟩

/-- Claim C1, amended.  For every menu with pairwise-distinct ids, every id `X`
of a menu item `m`, every order without an item for `X`, and all quantities
`q1, q2 ≥ 1` whose sum is an `int` (`q1 + q2 ≤ INT_MAX`): processing a line
that reads as `add X q1` and then one that reads as `add X q2` yields the
previous order items, unchanged and in place, followed by one item for `m`
with quantity `q1 + q2`; the menu is unchanged. -/
theorem add_twice_merges (fmt : FloatFmt) (menu : Menu) (order : Order)
    (X tok1 tok2 line1 line2 : List Char) (m : MenuItem) (q1 q2 : Int)
    (hnd : (menu.list.map MenuItem.id).Nodup) (hm : m ∈ menu.list) (hX : m.id = X)
    (hfresh : ∀ it ∈ order.list, it.menuItem.id ≠ X)
    (h1 : tokenize line1 = (cAdd, X, tok1)) (ha1 : atoi tok1 = q1)
    (h2 : tokenize line2 = (cAdd, X, tok2)) (ha2 : atoi tok2 = q2)
    (hq1 : 1 ≤ q1) (hq2 : 1 ≤ q2) (hsum : q1 + q2 ≤ INT_MAX) :
    (processLine fmt (processLine fmt menu order line1).menu
        (processLine fmt menu order line1).order line2).order.list
      = order.list ++ [{ menuItem := m, quantity := q1 + q2 }]
    ∧ (processLine fmt (processLine fmt menu order line1).menu
        (processLine fmt menu order line1).order line2).menu = menu := by
  have hstep1 : (processLine fmt menu order line1).order.list
        = order.list ++ [{ menuItem := m, quantity := q1 }]
      ∧ (processLine fmt menu order line1).menu = menu := by
    rw [processLine_add fmt menu order line1 X tok1 h1]
    unfold addBranch
    rw [addOrderLoop_absent X tok1 order.list hfresh]
    obtain ⟨cap, hc⟩ := addMenuLoop_accepted X tok1 (by omega) menu.list order false
    rw [filter_id_of_nodup X menu.list m hnd hm hX] at hc
    have hany : menu.list.any (fun m => decide (m.id = X)) = true :=
      List.any_eq_true.mpr ⟨m, hm, by simpa using hX⟩
    simp [hc, hany, ha1]
  obtain ⟨hl1, hm1⟩ := hstep1
  rw [hm1, processLine_add fmt menu _ line2 X tok2 h2]
  unfold addBranch
  have hfound := addOrderLoop_found X tok2 order.list [] { menuItem := m, quantity := q1 }
    hfresh hX
  rw [hl1, hfound, ha2, if_neg (by omega)]
  have hr : toInt32 (q1 + q2) = q1 + q2 :=
    toInt32_of_inRange _ (by unfold INT_MIN; omega) hsum
  simp [hr]

theorem add_twice_merges_witness :
    (processLine blankFmt (processLine blankFmt colaMenu initialOrder "add A001 2".toList).menu
        (processLine blankFmt colaMenu initialOrder "add A001 2".toList).order
        "add A001 3".toList).order.list
      = initialOrder.list ++ [{ menuItem := cola, quantity := 2 + 3 }]
    ∧ (processLine blankFmt (processLine blankFmt colaMenu initialOrder "add A001 2".toList).menu
        (processLine blankFmt colaMenu initialOrder "add A001 2".toList).order
        "add A001 3".toList).menu = colaMenu :=
  add_twice_merges blankFmt colaMenu initialOrder "A001".toList "2".toList "3".toList
    "add A001 2".toList "add A001 3".toList cola 2 3 (by decide) (by decide) (by decide)
    (by decide) (by decide) (by decide) (by decide) (by decide) (by decide) (by decide)
    (by decide)

/-- Claim C1, counterexample.  On the empty order, `add A001 2147483647` and
then `add A001 1` leave one item for `A001` whose quantity is not the sum
`2147483648`, which no `int` holds, but `-2147483648`. -/
theorem add_twice_overflows :
    (colaMenu.list.map MenuItem.id).Nodup ∧ cola ∈ colaMenu.list
    ∧ tokenize "add A001 2147483647".toList = (cAdd, cola.id, "2147483647".toList)
    ∧ atoi "2147483647".toList = 2147483647
    ∧ tokenize "add A001 1".toList = (cAdd, cola.id, "1".toList)
    ∧ atoi "1".toList = 1
    ∧ (processLine blankFmt
        (processLine blankFmt colaMenu initialOrder "add A001 2147483647".toList).menu
        (processLine blankFmt colaMenu initialOrder "add A001 2147483647".toList).order
        "add A001 1".toList).order.list
      = [{ menuItem := cola, quantity := -2147483648 }]
    ∧ (processLine blankFmt
        (processLine blankFmt colaMenu initialOrder "add A001 2147483647".toList).menu
        (processLine blankFmt colaMenu initialOrder "add A001 2147483647".toList).order
        "add A001 1".toList).order.list
      ≠ initialOrder.list ++ [{ menuItem := cola, quantity := 2147483647 + 1 }] := by
  decide

/-- Claim C2.  For every order holding an item `it` for id `X` (the first such
item, after `pre` and before `post`) whose quantity `c` is an `int`, and
every quantity `q` with `1 ≤ q ≤ c`, a line that reads as `remove X q` erases
the item when `q = c`, the items after it moving one slot down, and otherwise
leaves it in place with quantity `c - q`; all other items and the menu are
unchanged. -/
theorem remove_decrements_or_deletes (fmt : FloatFmt) (menu : Menu) (order : Order)
    (line X tok : List Char) (q : Int) (pre post : List OrderItem) (it : OrderItem)
    (h : tokenize line = (cRemove, X, tok)) (ha : atoi tok = q)
    (hl : order.list = pre ++ it :: post)
    (hpre : ∀ p ∈ pre, p.menuItem.id ≠ X) (hit : it.menuItem.id = X)
    (hq1 : 1 ≤ q) (hq2 : q ≤ it.quantity) (hint : it.quantity ≤ INT_MAX) :
    (processLine fmt menu order line).order.list
      = (if q = it.quantity then pre ++ post
         else pre ++ { it with quantity := it.quantity - q } :: post)
    ∧ (processLine fmt menu order line).menu = menu := by
  rw [processLine_remove fmt menu order line X tok h]
  unfold removeBranch
  rw [hl, removeLoop_found X tok pre post it false hpre hit, ha]
  by_cases hc : q = it.quantity
  · simp [hc]
  · have hlt : q < it.quantity := lt_of_le_of_ne hq2 hc
    have hr : toInt32 (it.quantity - q) = it.quantity - q :=
      toInt32_of_inRange _ (by unfold INT_MIN; omega) (by omega)
    simp [hc, hlt, hr]

/-- Claim C4, amended.  For every menu, order and id word `X`, a line that
reads as `add X tok` whose quantity word `tok` is missing, has no leading
integer, or denotes an integer `v` below 1 that an `int` holds
(`-2147483648 ≤ v`) leaves the order (items, quantities, count and capacity)
and the menu unchanged, and the text written contains `Invalid command`. -/
theorem add_bad_quantity_rejected (fmt : FloatFmt) (menu : Menu) (order : Order)
    (line X tok : List Char) (h : tokenize line = (cAdd, X, tok))
    (hq : tok = [] ∨ tokenValue tok = none
      ∨ ∃ v, tokenValue tok = some v ∧ INT_MIN ≤ v ∧ v < 1) :
    (processLine fmt menu order line).order = order
    ∧ (processLine fmt menu order line).menu = menu
    ∧ ∃ out, (processLine fmt menu order line).out = some out
        ∧ "Invalid command".toList <:+: out := by
  have hq1 : atoi tok < 1 := by
    rcases hq with h0 | h0 | ⟨v, h0, h1, h2⟩
    · subst h0; decide
    · rw [atoi_of_no_value tok h0]; decide
    · rw [atoi_of_value tok v h0 ⟨h1, by unfold INT_MAX; omega⟩]; exact h2
  rw [processLine_add fmt menu order line X tok h]
  unfold addBranch
  rcases addOrderLoop_bad_quantity X tok hq1 order.list with h1 | h1
  · rw [h1]
    exact ⟨rfl, rfl, _, rfl, [], "\n\n".toList, by simp⟩
  · rw [h1]
    rcases addMenuLoop_rejected X tok hq1 menu.list order false with h2 | h2
    · rw [h2]
      exact ⟨rfl, rfl, _, rfl, [], "\n".toList, by simp⟩
    · rw [h2]
      exact ⟨rfl, rfl, _, rfl, invalidText_mentions_invalid line⟩

/-- Claim C5, amended.  For every order holding an item for id `X` (the
first such item) with quantity `c`, and every quantity word that denotes an
integer `q > c` that an `int` holds, a line that reads as `remove X q` leaves
the order and the menu unchanged, and the text written contains
`Invalid command`. -/
theorem remove_too_many_rejected (fmt : FloatFmt) (menu : Menu) (order : Order)
    (line X tok : List Char) (q : Int) (pre post : List OrderItem) (it : OrderItem)
    (h : tokenize line = (cRemove, X, tok))
    (hl : order.list = pre ++ it :: post)
    (hpre : ∀ p ∈ pre, p.menuItem.id ≠ X) (hit : it.menuItem.id = X)
    (hv : tokenValue tok = some q) (hint : inIntRange q) (hq : it.quantity < q) :
    (processLine fmt menu order line).order = order
    ∧ (processLine fmt menu order line).menu = menu
    ∧ ∃ out, (processLine fmt menu order line).out = some out
        ∧ "Invalid command".toList <:+: out := by
  have ha : atoi tok = q := atoi_of_value tok q hv hint
  rw [processLine_remove fmt menu order line X tok h]
  unfold removeBranch
  rw [hl, removeLoop_found X tok pre post it false hpre hit,
    if_neg (by omega), if_neg (by omega)]
  exact ⟨rfl, rfl, _, rfl, [], "\n\n".toList, by simp⟩

/-- Claim C3, at the failing input.  On an order holding two of `A001`, the
line `remove B002 1`, whose id matches no order item, leaves the order
unchanged but is echoed like an accepted command: the text written is the
line and a blank line, without `Invalid command`. -/
theorem remove_unknown_id_echoes :
    (∀ it ∈ [({ menuItem := cola, quantity := 2 } : OrderItem)], it.menuItem.id ≠ "B002".toList)
    ∧ tokenize "remove B002 1".toList = (cRemove, "B002".toList, "1".toList)
    ∧ processLine blankFmt colaMenu { list := [{ menuItem := cola, quantity := 2 }], capacity := 5 }
        "remove B002 1".toList
      = { menu := colaMenu,
          order := { list := [{ menuItem := cola, quantity := 2 }], capacity := 5 },
          out := some "remove B002 1\n\n".toList, quit := false } := by
  decide

/-! ## Sorting -/

theorem insertBy_perm {α : Type} (cmp : α → α → Int) (x : α) (l : List α) :
    (insertBy cmp x l).Perm (x :: l) := by
  induction l with
  | nil => exact List.Perm.refl _
  | cons y ys ih =>
    unfold insertBy
    split
    · exact List.Perm.refl _
    · exact (List.Perm.cons y ih).trans (List.Perm.swap x y ys)

theorem qsort_perm {α : Type} (cmp : α → α → Int) (l : List α) : (qsort cmp l).Perm l := by
  induction l with
  | nil => exact List.Perm.refl _
  | cons x xs ih =>
    show (insertBy cmp x (qsort cmp xs)).Perm (x :: xs)
    exact (insertBy_perm cmp x _).trans (List.Perm.cons x ih)

/-! ## What one command does to the menu and the order -/

theorem addBranch_menu (menu : Menu) (order : Order) (input X tok : List Char) :
    (addBranch menu order input X tok).menu = menu := by
  unfold addBranch
  split
  · rfl
  · rfl
  · split
    · rfl
    · split <;> rfl

theorem removeBranch_menu (menu : Menu) (order : Order) (input X tok : List Char) :
    (removeBranch menu order input X tok).menu = menu := by
  unfold removeBranch
  split
  · rfl
  · rfl
  · split <;> rfl

theorem processLine_menu_perm (fmt : FloatFmt) (menu : Menu) (order : Order) (input : List Char) :
    (processLine fmt menu order input).menu.list.Perm menu.list := by
  unfold processLine
  simp only
  split_ifs
  all_goals first
    | exact List.Perm.refl _
    | exact qsort_perm _ _
    | (rw [addBranch_menu]) 
    | (rw [removeBranch_menu])

theorem split_at_first_id (X : List Char) (l : List OrderItem) :
    (∀ it ∈ l, it.menuItem.id ≠ X)
    ∨ ∃ pre it post, l = pre ++ it :: post ∧ (∀ p ∈ pre, p.menuItem.id ≠ X)
        ∧ it.menuItem.id = X := by
  induction l with
  | nil => left; intro it h; cases h
  | cons a rest ih =>
    by_cases ha : a.menuItem.id = X
    · right; exact ⟨[], a, rest, rfl, (by intro p hp; cases hp), ha⟩
    · rcases ih with h | ⟨pre, it, post, hl, hpre, hit⟩
      · left
        intro it hit
        rcases List.mem_cons.mp hit with rfl | h2
        · exact ha
        · exact h it h2
      · right
        refine ⟨a :: pre, it, post, by rw [hl]; rfl, ?_, hit⟩
        intro p hp
        rcases List.mem_cons.mp hp with rfl | h2
        · exact ha
        · exact hpre p h2

theorem addBranch_effect (menu : Menu) (order : Order) (input X tok : List Char) :
    OrderEffect cAdd X tok menu.list order.list (addBranch menu order input X tok).order.list := by
  unfold addBranch
  rcases split_at_first_id X order.list with hfresh | ⟨pre, it, post, hl, hpre, hit⟩
  · rw [addOrderLoop_absent X tok order.list hfresh]
    by_cases hq : atoi tok < 1
    · rcases addMenuLoop_rejected X tok hq menu.list order false with h2 | h2
      · rw [h2]; exact OrderEffect.perm _ (List.Perm.refl _)
      · rw [h2]; exact OrderEffect.perm _ (List.Perm.refl _)
    · obtain ⟨cap, hc⟩ := addMenuLoop_accepted X tok (by omega) menu.list order false
      rw [hc]
      simp only
      split <;> exact OrderEffect.appended rfl hfresh (by omega)
  · rw [hl, addOrderLoop_found X tok pre post it hpre hit]
    by_cases hq : atoi tok < 1
    · rw [if_pos hq, ← hl]; exact OrderEffect.perm _ (List.Perm.refl _)
    · rw [if_neg hq]
      exact OrderEffect.merged rfl pre post it rfl hit (by omega)

theorem removeBranch_effect (menu : Menu) (order : Order) (input X tok : List Char) :
    OrderEffect cRemove X tok menu.list order.list (removeBranch menu order input X tok).order.list := by
  unfold removeBranch
  rcases split_at_first_id X order.list with hfresh | ⟨pre, it, post, hl, hpre, hit⟩
  · rw [removeLoop_absent X tok order.list false hfresh]
    simp only
    split <;> exact OrderEffect.perm _ (List.Perm.refl _)
  · rw [hl, removeLoop_found X tok pre post it false hpre hit]
    by_cases hq : atoi tok = it.quantity
    · rw [if_pos hq]; exact OrderEffect.erased rfl pre post it rfl hit hq
    · rw [if_neg hq]
      by_cases hq2 : atoi tok < it.quantity
      · rw [if_pos hq2]; exact OrderEffect.decremented rfl pre post it rfl hit hq2
      · rw [if_neg hq2, ← hl]; exact OrderEffect.perm _ (List.Perm.refl _)

theorem processLine_effect (fmt : FloatFmt) (menu : Menu) (order : Order) (input : List Char) :
    OrderEffect (tokenize input).1 (tokenize input).2.1 (tokenize input).2.2 menu.list order.list
      (processLine fmt menu order input).order.list := by
  unfold processLine
  simp only
  split_ifs with h1 h2 h3 h4 h5 h6 h7 h8
  all_goals first
    | exact OrderEffect.perm _ (List.Perm.refl _)
    | exact OrderEffect.perm _ (qsort_perm _ _)
    | skip
  · rw [(strcmp_eq_zero_iff _ _).mp h6]
    exact addBranch_effect menu order input _ _
  · rw [(strcmp_eq_zero_iff _ _).mp h7]
    exact removeBranch_effect menu order input _ _

/-! ## Invariants of the order -/

theorem ids_of_filter (X : List Char) (l : List MenuItem) :
    ∀ x ∈ (l.filter (fun m => decide (m.id = X))).map MenuItem.id, x = X := by
  intro x hx
  obtain ⟨m, hm, rfl⟩ := List.mem_map.mp hx
  simpa using (List.mem_filter.mp hm).2

theorem effect_preserves_nodup (cmd X tok : List Char) (menuList : List MenuItem)
    (l l1 : List OrderItem) (he : OrderEffect cmd X tok menuList l l1)
    (hmenu : (menuList.map MenuItem.id).Nodup)
    (hl : (l.map (fun it => it.menuItem.id)).Nodup) :
    (l1.map (fun it => it.menuItem.id)).Nodup := by
  cases he with
  | perm _ h => exact (h.map _).nodup_iff.mpr hl
  | merged hc pre post it hl0 hit hq =>
    subst hl0
    simpa using hl
  | appended hc hfresh hq =>
    rw [List.map_append, List.map_map]
    have hnew : ((menuList.filter (fun m => decide (m.id = X))).map MenuItem.id).Nodup :=
      (List.Sublist.map _ (List.filter_sublist _)).nodup hmenu
    refine List.Nodup.append hl hnew ?_
    intro x hx1 hx2
    have hxX : x = X := ids_of_filter X menuList x hx2
    obtain ⟨it, hit, hid⟩ := List.mem_map.mp hx1
    exact hfresh it hit (by rw [← hxX]; exact hid)
  | erased hc pre post it hl0 hit hq =>
    subst hl0
    refine List.Nodup.sublist ?_ hl
    exact List.Sublist.map _ (List.Sublist.append (List.Sublist.refl _) (List.sublist_cons_self _ _))
  | decremented hc pre post it hl0 hit hq =>
    subst hl0
    simpa using hl

theorem runLines_nodup (fmt : FloatFmt) (lines : List (List Char)) (menu : Menu) (order : Order)
    (hmenu : (menu.list.map MenuItem.id).Nodup)
    (hl : (order.list.map (fun it => it.menuItem.id)).Nodup) :
    ((runLines fmt menu order lines).1.list.map MenuItem.id).Nodup
    ∧ ((runLines fmt menu order lines).2.list.map (fun it => it.menuItem.id)).Nodup := by
  induction lines generalizing menu order with
  | nil => exact ⟨hmenu, hl⟩
  | cons line rest ih =>
    have hm1 : ((processLine fmt menu order line).menu.list.map MenuItem.id).Nodup :=
      ((processLine_menu_perm fmt menu order line).map _).nodup_iff.mpr hmenu
    have ho1 := effect_preserves_nodup _ _ _ _ _ _ (processLine_effect fmt menu order line) hmenu hl
    unfold runLines
    split
    · exact ⟨hm1, ho1⟩
    · exact ih _ _ hm1 ho1

/-- Claim C6.  Given a menu with pairwise-distinct ids, after any finite
sequence of command lines run from the empty order, no two order items
reference the same menu-item id. -/
theorem order_ids_unique (fmt : FloatFmt) (menu : Menu) (lines : List (List Char))
    (hmenu : (menu.list.map MenuItem.id).Nodup) :
    ((runLines fmt menu initialOrder lines).2.list.map (fun it => it.menuItem.id)).Nodup :=
  (runLines_nodup fmt lines menu initialOrder hmenu List.nodup_nil).2

theorem effect_preserves_quantities (cmd X tok : List Char) (menuList : List MenuItem)
    (l l1 : List OrderItem) (he : OrderEffect cmd X tok menuList l l1)
    (hr : ∀ it ∈ l, it.menuItem.id = X →
      (cmd = cAdd → inIntRange (it.quantity + atoi tok))
      ∧ (cmd = cRemove → inIntRange (it.quantity - atoi tok)))
    (hl : ∀ it ∈ l, 1 ≤ it.quantity) :
    ∀ it ∈ l1, 1 ≤ it.quantity := by
  cases he with
  | perm _ h => intro it hit; exact hl it (h.mem_iff.mp hit)
  | merged hc pre post it hl0 hit hq =>
    subst hl0
    have hin : it ∈ pre ++ it :: post := by simp
    have hrange := (hr it hin hit).1 hc
    have hv : toInt32 (it.quantity + atoi tok) = it.quantity + atoi tok :=
      toInt32_of_inRange _ hrange.1 hrange.2
    have h1 := hl it hin
    intro j hj
    rcases List.mem_append.mp hj with h | h
    · exact hl j (by simp [h])
    · rcases List.mem_cons.mp h with rfl | h
      · show 1 ≤ toInt32 (it.quantity + atoi tok)
        rw [hv]; omega
      · exact hl j (by simp [h])
  | appended hc hfresh hq =>
    intro j hj
    rcases List.mem_append.mp hj with h | h
    · exact hl j h
    · obtain ⟨m, _, rfl⟩ := List.mem_map.mp h
      exact hq
  | erased hc pre post it hl0 hit hq =>
    subst hl0
    intro j hj
    rcases List.mem_append.mp hj with h | h
    · exact hl j (by simp [h])
    · exact hl j (by simp [h])
  | decremented hc pre post it hl0 hit hq =>
    subst hl0
    have hin : it ∈ pre ++ it :: post := by simp
    have hrange := (hr it hin hit).2 hc
    have hv : toInt32 (it.quantity - atoi tok) = it.quantity - atoi tok :=
      toInt32_of_inRange _ hrange.1 hrange.2
    intro j hj
    rcases List.mem_append.mp hj with h | h
    · exact hl j (by simp [h])
    · rcases List.mem_cons.mp h with rfl | h
      · show 1 ≤ toInt32 (it.quantity - atoi tok)
        rw [hv]; omega
      · exact hl j (by simp [h])

theorem runLines_quantities (fmt : FloatFmt) (lines : List (List Char)) (menu : Menu)
    (order : Order) (hrun : sumsInRangeRun fmt menu order lines)
    (hl : ∀ it ∈ order.list, 1 ≤ it.quantity) :
    ∀ it ∈ (runLines fmt menu order lines).2.list, 1 ≤ it.quantity := by
  induction lines generalizing menu order with
  | nil => exact hl
  | cons line rest ih =>
    obtain ⟨hr, hrest⟩ := hrun
    have ho1 := effect_preserves_quantities _ _ _ _ _ _ (processLine_effect fmt menu order line)
      hr hl
    unfold runLines
    split
    · exact ho1
    · rename_i hq
      exact ih _ _ (hrest (by simpa using hq)) ho1

/-- Claim C7.  After any finite sequence of command lines run from the empty
order, as long as no quantity sum leaves the range of `int`, every order item
has quantity at least 1; in particular no item is kept with quantity zero. -/
theorem order_quantities_positive (fmt : FloatFmt) (menu : Menu) (lines : List (List Char))
    (hrun : sumsInRangeRun fmt menu initialOrder lines) :
    ∀ it ∈ (runLines fmt menu initialOrder lines).2.list, 1 ≤ it.quantity :=
  runLines_quantities fmt lines menu initialOrder hrun (by intro it h; cases h)

/-! ## Loading -/

theorem takeWhile_ne_newline (l rest : List Char) (h : '\n' ∉ l) :
    (l ++ '\n' :: rest).takeWhile (fun c => c ≠ '\n') = l := by
  induction l with
  | nil => simp [List.takeWhile]
  | cons a t ih =>
    have ha : a ≠ '\n' := fun e => h (by simp [e])
    have ht : '\n' ∉ t := fun e => h (by simp [e])
    have := ih ht
    simp only [List.cons_append, List.takeWhile, ha, ne_eq, not_false_eq_true, decide_True,
      List.cons.injEq, true_and]
    exact this

theorem readLine_terminated (l rest : List Char) (h : '\n' ∉ l) :
    readLine (l ++ '\n' :: rest) = some (cstr l, rest) := by
  have hne : l ++ '\n' :: rest ≠ [] := by simp
  rw [readLine, if_neg hne]
  simp only [takeWhile_ne_newline l rest h]
  simp

theorem takeWhile_ne_newline_all (l : List Char) (h : '\n' ∉ l) :
    l.takeWhile (fun c => c ≠ '\n') = l := by
  induction l with
  | nil => rfl
  | cons a t ih =>
    have ha : a ≠ '\n' := fun e => h (by simp [e])
    have ht : '\n' ∉ t := fun e => h (by simp [e])
    have := ih ht
    simp only [List.takeWhile, ha, ne_eq, not_false_eq_true, decide_True, List.cons.injEq,
      true_and]
    exact this

theorem readLine_unterminated (l : List Char) (hne : l ≠ []) (h : '\n' ∉ l) :
    readLine l = some (cstr (l.take (l.length - 1)), l.drop (l.length - 1)) := by
  rw [readLine, if_neg hne]
  simp only [takeWhile_ne_newline_all l h]
  simp

theorem cstr_of_no_nul (l : List Char) (h : '\x00' ∉ l) : cstr l = l := by
  unfold cstr
  induction l with
  | nil => rfl
  | cons a t ih =>
    have ha : a ≠ '\x00' := fun e => h (by simp [e])
    have ht : '\x00' ∉ t := fun e => h (by simp [e])
    have := ih ht
    simp only [List.takeWhile, ha, ne_eq, not_false_eq_true, decide_True, List.cons.injEq,
      true_and]
    exact this

theorem growMenu_list (menu : Menu) : (growMenu menu).list = menu.list := by
  unfold growMenu; split <;> rfl

theorem fourth_byte_check (id : List Char) :
    (id.get? 0 = none ∨ id.get? 1 = none ∨ id.get? 2 = none ∨ id.get? 3 = none
      ∨ id.get? 4 ≠ none) ↔ id.length ≠ 4 := by
  simp only [List.get?_eq_none, ne_eq, not_le]
  omega

theorem order_ids_unique_witness :
    ((runLines blankFmt twoMenu initialOrder session).2.list.map
      (fun it => it.menuItem.id)).Nodup :=
  order_ids_unique blankFmt twoMenu session (by decide)

theorem order_quantities_positive_witness :
    sumsInRangeRun blankFmt twoMenu initialOrder shortSession
    ∧ (runLines blankFmt twoMenu initialOrder shortSession).2.list
        = [{ menuItem := cola, quantity := 1 }]
    ∧ 1 ≤ ({ menuItem := cola, quantity := 1 } : OrderItem).quantity :=
  ⟨by decide, by decide,
    order_quantities_positive blankFmt twoMenu shortSession (by decide)
      { menuItem := cola, quantity := 1 } (by decide)⟩

/-! ## Instances of the theorems and evaluations at concrete inputs -/

theorem remove_decrements_or_deletes_witness :
    (processLine blankFmt colaMenu fiveColas "remove A001 3".toList).order.list
      = (if (3 : Int) = ({ menuItem := cola, quantity := 5 } : OrderItem).quantity then [] ++ []
         else [] ++ { ({ menuItem := cola, quantity := 5 } : OrderItem) with
                       quantity := ({ menuItem := cola, quantity := 5 } : OrderItem).quantity - 3 }
                    :: [])
    ∧ (processLine blankFmt colaMenu fiveColas "remove A001 3".toList).menu = colaMenu :=
  remove_decrements_or_deletes blankFmt colaMenu fiveColas "remove A001 3".toList
    "A001".toList "3".toList 3 [] [] { menuItem := cola, quantity := 5 }
    (by decide) (by decide) (by decide) (by decide) (by decide) (by decide) (by decide)
    (by decide)

theorem add_bad_quantity_rejected_witness :
    (processLine blankFmt colaMenu fiveColas "add A001 -1".toList).order = fiveColas
    ∧ (processLine blankFmt colaMenu fiveColas "add A001 -1".toList).menu = colaMenu
    ∧ ∃ out, (processLine blankFmt colaMenu fiveColas "add A001 -1".toList).out = some out
        ∧ "Invalid command".toList <:+: out :=
  add_bad_quantity_rejected blankFmt colaMenu fiveColas "add A001 -1".toList
    "A001".toList "-1".toList (by decide)
    (Or.inr (Or.inr ⟨-1, by decide, by decide, by decide⟩))

/-- Claim C4, counterexample.  The quantity word of `add A001 -4294967295`
denotes an integer below 1, but `atoi` reads it as 1: on the empty order the
line is echoed, and the order then holds one of `A001`. -/
theorem add_wrapped_quantity_accepted :
    tokenize "add A001 -4294967295".toList = (cAdd, "A001".toList, "-4294967295".toList)
    ∧ tokenValue "-4294967295".toList = some (-4294967295)
    ∧ (-4294967295 : Int) < 1
    ∧ atoi "-4294967295".toList = 1
    ∧ (processLine blankFmt colaMenu initialOrder "add A001 -4294967295".toList).order.list
      = [{ menuItem := cola, quantity := 1 }]
    ∧ (processLine blankFmt colaMenu initialOrder "add A001 -4294967295".toList).order
      ≠ initialOrder
    ∧ (processLine blankFmt colaMenu initialOrder "add A001 -4294967295".toList).out
      = some "add A001 -4294967295\n\n".toList := by
  decide

theorem remove_too_many_rejected_witness :
    (processLine blankFmt colaMenu fiveColas "remove A001 6".toList).order = fiveColas
    ∧ (processLine blankFmt colaMenu fiveColas "remove A001 6".toList).menu = colaMenu
    ∧ ∃ out, (processLine blankFmt colaMenu fiveColas "remove A001 6".toList).out = some out
        ∧ "Invalid command".toList <:+: out :=
  remove_too_many_rejected blankFmt colaMenu fiveColas "remove A001 6".toList
    "A001".toList "6".toList 6 [] [] { menuItem := cola, quantity := 5 }
    (by decide) (by decide) (by decide) (by decide) (by decide) (by decide) (by decide)

/-- Claim C5, counterexample.  On an order holding five of `A001`, the
quantity word of `remove A001 4294967297` denotes an integer above 5, but
`atoi` reads it as 1: the line is echoed, and the order then holds four. -/
theorem remove_wrapped_quantity_accepted :
    tokenize "remove A001 4294967297".toList = (cRemove, "A001".toList, "4294967297".toList)
    ∧ tokenValue "4294967297".toList = some 4294967297
    ∧ ({ menuItem := cola, quantity := 5 } : OrderItem).quantity < (4294967297 : Int)
    ∧ atoi "4294967297".toList = 1
    ∧ (processLine blankFmt colaMenu fiveColas "remove A001 4294967297".toList).order.list
      = [{ menuItem := cola, quantity := 4 }]
    ∧ (processLine blankFmt colaMenu fiveColas "remove A001 4294967297".toList).order
      ≠ fiveColas
    ∧ (processLine blankFmt colaMenu fiveColas "remove A001 4294967297".toList).out
      = some "remove A001 4294967297\n\n".toList := by
  decide

/-- Claim C9, at the failing input.  The file with the single line
`A001 Drinks 150` is loaded, and the item is stored with an empty name. -/
theorem empty_name_loaded :
    nameField noNameLine = []
    ∧ readMenuItems makeMenu (noNameLine ++ ['\n'])
      = some (Loaded.menu
          { list := [{ id := "A001".toList, name := [], category := "Drinks".toList,
                       cost := 150 }],
            capacity := 5 }) := by
  decide

/-- Claim C10, at the failing input.  A record whose category has 16
characters is loaded, and the item is stored with that category. -/
theorem long_category_loaded :
    "ABCDEFGHIJKLMNOP".toList.length = 16
    ∧ readMenuItems makeMenu (longCategoryLine ++ ['\n'])
      = some (Loaded.menu
          { list := [{ id := "A001".toList, name := "Cola".toList,
                       category := "ABCDEFGHIJKLMNOP".toList, cost := 150 }],
            capacity := 5 }) := by
  decide

/-! ## Order properties of `strcmp` and sorting -/

theorem strcmp_swap (a b : List Char) : strcmp b a = - strcmp a b := by
  induction a generalizing b with
  | nil => cases b <;> simp [strcmp]
  | cons c cs ih =>
    cases b with
    | nil => simp [strcmp]
    | cons d ds =>
      simp only [strcmp]
      by_cases hcd : c = d
      · subst hcd; simp [ih]
      · have hdc : ¬ d = c := fun e => hcd e.symm
        have hne : c.toNat ≠ d.toNat := fun e => hcd (by
          rw [← Char.ofNat_toNat c, ← Char.ofNat_toNat d, e])
        simp only [hcd, hdc, if_false]
        split_ifs <;> first | rfl | omega


theorem strcmp_values (a b : List Char) : strcmp a b = -1 ∨ strcmp a b = 0 ∨ strcmp a b = 1 := by
  induction a generalizing b with
  | nil => cases b <;> simp [strcmp]
  | cons c cs ih =>
    cases b with
    | nil => simp [strcmp]
    | cons d ds =>
      simp only [strcmp]
      split_ifs
      · exact ih ds
      · left; rfl
      · right; right; rfl

theorem strcmp_trans (a b c : List Char) (h1 : strcmp a b < 0) (h2 : strcmp b c < 0) :
    strcmp a c < 0 := by
  induction a generalizing b c with
  | nil =>
    cases c with
    | nil => cases b <;> simp [strcmp] at h1 h2
    | cons z zs => simp [strcmp]
  | cons x xs ih =>
    cases b with
    | nil => simp [strcmp] at h1
    | cons y ys =>
      cases c with
      | nil => simp [strcmp] at h2
      | cons z zs =>
        simp only [strcmp] at h1 h2 ⊢
        by_cases hxy : x = y
        · subst hxy
          simp only [if_true] at h1
          by_cases hxz : x = z
          · subst hxz
            simp only [if_true] at h2 ⊢
            exact ih ys zs h1 h2
          · simp only [hxz, if_false] at h2 ⊢
            exact h2
        · simp only [hxy, if_false] at h1
          have hlt : x.toNat < y.toNat := by
            by_contra hge
            simp [hge] at h1
          by_cases hyz : y = z
          · subst hyz
            simp [hxy, hlt]
          · simp only [hyz, if_false] at h2
            have hlt2 : y.toNat < z.toNat := by
              by_contra hge
              simp [hge] at h2
            have hxz : x ≠ z := by
              intro e; subst e; omega
            have : x.toNat < z.toNat := by omega
            simp [hxz, this]

theorem strcmp_le_trans (a b c : List Char) (h1 : strcmp a b ≤ 0) (h2 : strcmp b c ≤ 0) :
    strcmp a c ≤ 0 := by
  rcases lt_or_eq_of_le h1 with h | h
  · rcases lt_or_eq_of_le h2 with h' | h'
    · exact le_of_lt (strcmp_trans a b c h h')
    · rw [(strcmp_eq_zero_iff b c).mp h'] at h; exact le_of_lt h
  · rw [(strcmp_eq_zero_iff a b).mp h]; exact h2

theorem strcmp_le_total (a b : List Char) : strcmp a b ≤ 0 ∨ strcmp b a ≤ 0 := by
  rw [strcmp_swap a b]
  omega

/-- Insertion keeps a list sorted, for a comparator that is total and transitive. -/
theorem insertBy_pairwise {α : Type} (cmp : α → α → Int)
    (htot : ∀ a b, cmp a b ≤ 0 ∨ cmp b a ≤ 0)
    (htrans : ∀ a b c, cmp a b ≤ 0 → cmp b c ≤ 0 → cmp a c ≤ 0)
    (x : α) (l : List α) (hl : l.Pairwise (fun a b => cmp a b ≤ 0)) :
    (insertBy cmp x l).Pairwise (fun a b => cmp a b ≤ 0) := by
  induction l with
  | nil => simp [insertBy]
  | cons y ys ih =>
    rw [List.pairwise_cons] at hl
    unfold insertBy
    split
    · rename_i hxy
      rw [List.pairwise_cons]
      refine ⟨?_, List.pairwise_cons.mpr hl⟩
      intro z hz
      rcases List.mem_cons.mp hz with rfl | hz
      · exact hxy
      · exact htrans _ _ _ hxy (hl.1 z hz)
    · rename_i hxy
      have hyx : cmp y x ≤ 0 := by
        rcases htot x y with h | h
        · exact absurd h hxy
        · exact h
      rw [List.pairwise_cons]
      refine ⟨?_, ih hl.2⟩
      intro z hz
      rcases List.mem_cons.mp ((insertBy_perm cmp x ys).subset hz) with rfl | hz
      · exact hyx
      · exact hl.1 z hz

theorem qsort_pairwise {α : Type} (cmp : α → α → Int)
    (htot : ∀ a b, cmp a b ≤ 0 ∨ cmp b a ≤ 0)
    (htrans : ∀ a b c, cmp a b ≤ 0 → cmp b c ≤ 0 → cmp a c ≤ 0) (l : List α) :
    (qsort cmp l).Pairwise (fun a b => cmp a b ≤ 0) := by
  induction l with
  | nil => simp [qsort]
  | cons x xs ih => exact insertBy_pairwise cmp htot htrans x _ ih

/-! ## Listing a category -/

theorem isCategoryLoop_iff (p1 p2 : List Char) : isCategoryLoop p1 p2 = true ↔ p1 = p2 := by
  induction p2 generalizing p1 with
  | nil => simp [isCategoryLoop]
  | cons b bs ih =>
    cases p1 with
    | nil => simp [isCategoryLoop]
    | cons a as =>
      simp only [isCategoryLoop]
      by_cases hab : a = b
      · subst hab; simp [ih]
      · simp [hab]

theorem isCategory_iff (m : MenuItem) (str : List Char) :
    isCategory m str = true ↔ m.category = str :=
  isCategoryLoop_iff _ _

theorem scanWord_no_space (s : List Char) : ∀ c ∈ scanWord s, isspace c = false := by
  induction s with
  | nil => intro c hc; cases hc
  | cons a t ih =>
    intro c hc
    unfold scanWord at hc
    by_cases ha : isspace a = true
    · simp [ha] at hc
    · simp only [ha, if_false] at hc
      rcases List.mem_cons.mp hc with rfl | h
      · simpa using ha
      · exact ih c h

theorem scanStr_no_space (s : List Char) : ∀ c ∈ (scanStr s).1, isspace c = false := by
  intro c hc
  unfold scanStr at hc
  simp only at hc
  split at hc
  · cases hc
  · exact scanWord_no_space _ c hc

theorem token3_ne_list_menu (input : List Char) :
    strcmp "list menu".toList (tokenize input).2.2 ≠ 0 := by
  intro h
  have he := (strcmp_eq_zero_iff _ _).mp h
  have hsp : isspace ' ' = false :=
    scanStr_no_space _ ' ' (by
      show ' ' ∈ (tokenize input).2.2
      rw [← he]; decide)
  exact absurd hsp (by decide)

theorem listCategoryComp_total (a b : MenuItem) :
    listCategoryComp a b ≤ 0 ∨ listCategoryComp b a ≤ 0 :=
  strcmp_le_total _ _

theorem listCategoryComp_trans (a b c : MenuItem) (h1 : listCategoryComp a b ≤ 0)
    (h2 : listCategoryComp b c ≤ 0) : listCategoryComp a c ≤ 0 :=
  strcmp_le_trans _ _ _ h1 h2

theorem processLine_list_category (fmt : FloatFmt) (menu : Menu) (order : Order)
    (input N t : List Char) (h : tokenize input = (cList, cCategory, t)) (hN : N = t) :
    processLine fmt menu order input =
      { menu := (listMenuItems fmt menu listCategoryComp isCategory N).1, order := order,
        out := some (listMenuItems fmt menu listCategoryComp isCategory N).2, quit := false } := by
  subst hN
  unfold processLine
  rw [h]
  simp only [strcmp_eq_zero_iff]
  have h1 : cCategory ≠ cMenu := by decide
  simp [h1]

/-- The rows of the listing of a category, in terms of `menuRows`: the text
written, and the rows as the items of that category in ascending id order. -/
theorem listCategory_menuRows (fmt : FloatFmt) (menu : Menu) (order : Order)
    (line N : List Char) (h : tokenize line = (cList, cCategory, N))
    (hnd : (menu.list.map MenuItem.id).Nodup) :
    (processLine fmt menu order line).out
      = some ("list category ".toList ++ N ++ ['\n'] ++ menuHeader
          ++ ((menuRows menu listCategoryComp isCategory N).map (menuRow fmt)).flatten ++ ['\n'])
    ∧ (menuRows menu listCategoryComp isCategory N).Perm
        (menu.list.filter (fun m => decide (m.category = N)))
    ∧ (menuRows menu listCategoryComp isCategory N).Pairwise
        (fun a b => strcmp a.id b.id < 0)
    ∧ ((∀ m ∈ menu.list, m.category ≠ N) →
        (processLine fmt menu order line).out
          = some ("list category ".toList ++ N ++ ['\n'] ++ menuHeader ++ ['\n'])) := by
  have hne : strcmp "list menu".toList N ≠ 0 := by
    have := token3_ne_list_menu line
    rwa [h] at this
  have hrows : menuRows menu listCategoryComp isCategory N
      = (qsort listCategoryComp menu.list).filter (fun m => decide (m.category = N)) := by
    unfold menuRows
    rw [if_neg hne]
    apply List.filter_congr
    intro m _
    by_cases hm : m.category = N
    · simp [hm, (isCategory_iff m N).mpr hm]
    · have : isCategory m N = false := by
        cases hc : isCategory m N with
        | false => rfl
        | true => exact absurd ((isCategory_iff m N).mp hc) hm
      simp [hm, this]
  have hout : (processLine fmt menu order line).out
      = some ("list category ".toList ++ N ++ ['\n'] ++ menuHeader
          ++ ((menuRows menu listCategoryComp isCategory N).map (menuRow fmt)).flatten ++ ['\n']) := by
    rw [processLine_list_category fmt menu order line N N h rfl]
    simp only [listMenuItems, if_neg hne]
  refine ⟨hout, ?_, ?_, ?_⟩
  · rw [hrows]
    exact (qsort_perm _ _).filter _
  · rw [hrows]
    apply List.Pairwise.filter
    have hsorted := qsort_pairwise listCategoryComp listCategoryComp_total
      listCategoryComp_trans menu.list
    have hnd2 : ((qsort listCategoryComp menu.list).map MenuItem.id).Nodup :=
      ((qsort_perm listCategoryComp menu.list).map _).nodup_iff.mpr hnd
    have hne2 : (qsort listCategoryComp menu.list).Pairwise (fun a b => a.id ≠ b.id) := by
      rw [List.Nodup, List.pairwise_map] at hnd2
      exact hnd2
    refine (hsorted.and hne2).imp ?_
    intro a b hab
    have h0 : strcmp a.id b.id ≠ 0 := fun e => hab.2 ((strcmp_eq_zero_iff _ _).mp e)
    exact lt_of_le_of_ne hab.1 h0
  · intro hnone
    rw [hout]
    have hempty : menuRows menu listCategoryComp isCategory N = [] := by
      rw [hrows, List.filter_eq_nil_iff]
      intro m hm
      have := hnone m ((qsort_perm _ _).subset hm)
      simpa using this
    rw [hempty]
    simp

/-- Claim C13.  For every menu with pairwise-distinct ids and every line
whose words are `list`, `category` and `N`, there is a list `rows` of menu
items such that the text written is the line `list category N`, the header
line, then for each item of `rows` in turn one line with its id, name and
category, left-justified in fields of 5, 21 and 16 characters, a `$` and its
cost under `%6.2f`, and then an empty line; `rows` holds exactly the menu
items whose category equals `N`, each once, in strictly ascending id order;
when no item has category `N` the text is the two header lines and the empty
line. -/
theorem list_category_rows (fmt : FloatFmt) (menu : Menu) (order : Order)
    (line N : List Char) (h : tokenize line = (cList, cCategory, N))
    (hnd : (menu.list.map MenuItem.id).Nodup) :
    ∃ rows : List MenuItem,
      (processLine fmt menu order line).out
        = some ("list category ".toList ++ N ++ ['\n']
            ++ "ID   Name                 Category        Cost\n".toList
            ++ (rows.map (fun m =>
                  padRight 5 m.id ++ padRight 21 m.name ++ padRight 16 m.category
                    ++ '$' :: fmt [m.cost] ++ ['\n'])).flatten
            ++ ['\n'])
      ∧ rows.Perm (menu.list.filter (fun m => decide (m.category = N)))
      ∧ rows.Pairwise (fun a b => strcmp a.id b.id < 0)
      ∧ ((∀ m ∈ menu.list, m.category ≠ N) →
          (processLine fmt menu order line).out
            = some ("list category ".toList ++ N ++ ['\n']
                ++ "ID   Name                 Category        Cost\n".toList ++ ['\n'])) := by
  obtain ⟨h1, h2, h3, h4⟩ := listCategory_menuRows fmt menu order line N h hnd
  exact ⟨menuRows menu listCategoryComp isCategory N, h1, h2, h3, h4⟩

/-! ## Listing the order -/

theorem listOrderComp_le_iff (a b : OrderItem) :
    listOrderComp a b ≤ 0 ↔
      lineCents a > lineCents b
      ∨ (lineCents a = lineCents b ∧ strcmp a.menuItem.id b.menuItem.id ≤ 0) := by
  unfold listOrderComp lineCents
  split_ifs with h1 h2
  · simp [h1]
  · constructor
    · intro h; omega
    · intro h; rcases h with h | h <;> omega
  · have heq : toInt32 (a.menuItem.cost * a.quantity) = toInt32 (b.menuItem.cost * b.quantity) := by
      omega
    constructor
    · intro h; exact Or.inr ⟨heq, h⟩
    · intro h
      rcases h with h | h
      · omega
      · exact h.2

theorem listOrderComp_total (a b : OrderItem) :
    listOrderComp a b ≤ 0 ∨ listOrderComp b a ≤ 0 := by
  rw [listOrderComp_le_iff, listOrderComp_le_iff]
  rcases lt_trichotomy (lineCents a) (lineCents b) with h | h | h
  · right; left; exact h
  · rcases strcmp_le_total a.menuItem.id b.menuItem.id with h' | h'
    · left; right; exact ⟨h, h'⟩
    · right; right; exact ⟨h.symm, h'⟩
  · left; left; exact h

theorem listOrderComp_trans (a b c : OrderItem) (h1 : listOrderComp a b ≤ 0)
    (h2 : listOrderComp b c ≤ 0) : listOrderComp a c ≤ 0 := by
  rw [listOrderComp_le_iff] at h1 h2 ⊢
  rcases h1 with h1 | ⟨h1, h1'⟩
  · rcases h2 with h2 | ⟨h2, _⟩
    · left; omega
    · left; omega
  · rcases h2 with h2 | ⟨h2, h2'⟩
    · left; omega
    · right; exact ⟨by omega, strcmp_le_trans _ _ _ h1' h2'⟩

theorem processLine_list_order (fmt : FloatFmt) (menu : Menu) (order : Order)
    (input t : List Char) (h : tokenize input = (cList, cOrder, t)) :
    processLine fmt menu order input =
      { menu := menu, order := (listOrderItems fmt order listOrderComp).1,
        out := some (input ++ ['\n'] ++ (listOrderItems fmt order listOrderComp).2),
        quit := false } := by
  unfold processLine
  rw [h]
  simp only [strcmp_eq_zero_iff]
  have h1 : cOrder ≠ cMenu := by decide
  have h2 : cOrder ≠ cCategory := by decide
  simp [h1, h2]

/-- The rows of the listing of the order, in terms of `qsort` and `orderRow`:
the text written, and the rows as the items of the order, sorted. -/
theorem listOrder_sorted_rows (fmt : FloatFmt) (menu : Menu) (order : Order)
    (line t : List Char) (h : tokenize line = (cList, cOrder, t))
    (hnd : (order.list.map (fun it => it.menuItem.id)).Nodup)
    (hfit : ∀ it ∈ order.list, inIntRange (it.menuItem.cost * it.quantity)) :
    (processLine fmt menu order line).out
      = some (line ++ ['\n'] ++ orderHeader
          ++ (if (qsort listOrderComp order.list).length = 0 then
                "Total                                              $  0.00\n\n".toList
              else
                (((qsort listOrderComp order.list).map (orderRow fmt)).flatten)
                  ++ "Total                                              $".toList
                  ++ fmt ((qsort listOrderComp order.list).map lineCents) ++ "\n\n".toList))
    ∧ (processLine fmt menu order line).order
        = { list := qsort listOrderComp order.list, capacity := order.capacity }
    ∧ (processLine fmt menu order line).menu = menu
    ∧ (qsort listOrderComp order.list).Perm order.list
    ∧ (qsort listOrderComp order.list).Pairwise (fun a b =>
        a.menuItem.cost * a.quantity > b.menuItem.cost * b.quantity
        ∨ (a.menuItem.cost * a.quantity = b.menuItem.cost * b.quantity
            ∧ strcmp a.menuItem.id b.menuItem.id < 0)) := by
  rw [processLine_list_order fmt menu order line t h]
  refine ⟨by simp [listOrderItems], rfl, rfl, qsort_perm _ _, ?_⟩
  have hsorted := qsort_pairwise listOrderComp listOrderComp_total listOrderComp_trans order.list
  have hperm := qsort_perm listOrderComp order.list
  have hnd2 : ((qsort listOrderComp order.list).map (fun it => it.menuItem.id)).Nodup :=
    (hperm.map _).nodup_iff.mpr hnd
  have hne2 : (qsort listOrderComp order.list).Pairwise
      (fun a b => a.menuItem.id ≠ b.menuItem.id) := by
    rw [List.Nodup, List.pairwise_map] at hnd2
    exact hnd2
  have hfit2 : ∀ it ∈ qsort listOrderComp order.list,
      lineCents it = it.menuItem.cost * it.quantity := by
    intro it hit
    have := hfit it (hperm.subset hit)
    exact toInt32_of_inRange _ this.1 this.2
  have hall : (qsort listOrderComp order.list).Pairwise
      (fun a b => lineCents a = a.menuItem.cost * a.quantity
        ∧ lineCents b = b.menuItem.cost * b.quantity) := by
    rw [List.pairwise_iff_forall_sublist]
    intro a b hab
    exact ⟨hfit2 a (hab.subset (by simp)), hfit2 b (hab.subset (by simp))⟩
  refine ((hsorted.and hne2).and hall).imp ?_
  intro a b hab
  obtain ⟨⟨hle, hne⟩, ha, hb⟩ := hab
  rw [listOrderComp_le_iff, ha, hb] at hle
  rcases hle with hle | ⟨heq, hs⟩
  · left; exact hle
  · right
    refine ⟨heq, lt_of_le_of_ne hs ?_⟩
    intro e
    exact hne ((strcmp_eq_zero_iff _ _).mp e)

/-! ## Unknown commands and the echo -/

/-- Claim C16.  For every line whose first word is none of `list`, `add`,
`remove` and `quit` (the empty line included), the text written is the line,
a newline, `Invalid command` and a blank line, and the order and the menu
are unchanged. -/
theorem orderRow_of_inRange (fmt : FloatFmt) (l : List OrderItem)
    (hfit : ∀ it ∈ l, inIntRange (it.menuItem.cost * it.quantity)) :
    l.map (orderRow fmt)
      = l.map (fun it =>
          padRight 5 it.menuItem.id ++ padRight 21 it.menuItem.name
            ++ padLeft 8 (showInt it.quantity) ++ [' '] ++ padRight 16 it.menuItem.category
            ++ '$' :: fmt [it.menuItem.cost * it.quantity] ++ ['\n'])
    ∧ l.map lineCents = l.map (fun it => it.menuItem.cost * it.quantity) := by
  constructor
  · apply List.map_congr_left
    intro it hit
    have := hfit it hit
    unfold orderRow lineCents
    rw [toInt32_of_inRange _ this.1 this.2]
  · apply List.map_congr_left
    intro it hit
    have := hfit it hit
    unfold lineCents
    rw [toInt32_of_inRange _ this.1 this.2]

/-- Claim C14.  For every order whose items have pairwise-distinct ids and
whose line totals `cost * quantity` fit in `int`, and every line whose first
words are `list` and `order`, there is a list `rows` of order items such that
the text written is the line, the header line, then for each item of `rows`
in turn one line with the id and name of its menu item, left-justified in
fields of 5 and 21 characters, its quantity, right-justified in 8 characters,
a space, the category in a field of 16 characters, a `$` and
`cost * quantity` under `%6.2f`, and then the line of the total; `rows`
replaces the list of the order and is a permutation of it (so quantities and
menu items are unchanged) in which every row has a larger `cost * quantity`
than each later row, or the same and a smaller id; the menu is unchanged. -/
theorem list_order_rows (fmt : FloatFmt) (menu : Menu) (order : Order)
    (line t : List Char) (h : tokenize line = (cList, cOrder, t))
    (hnd : (order.list.map (fun it => it.menuItem.id)).Nodup)
    (hfit : ∀ it ∈ order.list, inIntRange (it.menuItem.cost * it.quantity)) :
    ∃ rows : List OrderItem,
      (processLine fmt menu order line).out
        = some (line ++ ['\n']
            ++ "ID   Name                 Quantity Category        Cost\n".toList
            ++ (if rows.length = 0 then
                  "Total                                              $  0.00\n\n".toList
                else
                  (rows.map (fun it =>
                      padRight 5 it.menuItem.id ++ padRight 21 it.menuItem.name
                        ++ padLeft 8 (showInt it.quantity) ++ [' ']
                        ++ padRight 16 it.menuItem.category
                        ++ '$' :: fmt [it.menuItem.cost * it.quantity] ++ ['\n'])).flatten
                    ++ "Total                                              $".toList
                    ++ fmt (rows.map (fun it => it.menuItem.cost * it.quantity))
                    ++ "\n\n".toList))
      ∧ (processLine fmt menu order line).order = { list := rows, capacity := order.capacity }
      ∧ (processLine fmt menu order line).menu = menu
      ∧ rows.Perm order.list
      ∧ rows.Pairwise (fun a b =>
          a.menuItem.cost * a.quantity > b.menuItem.cost * b.quantity
          ∨ (a.menuItem.cost * a.quantity = b.menuItem.cost * b.quantity
              ∧ strcmp a.menuItem.id b.menuItem.id < 0)) := by
  obtain ⟨h1, h2, h3, h4, h5⟩ := listOrder_sorted_rows fmt menu order line t h hnd hfit
  have hfit2 : ∀ it ∈ qsort listOrderComp order.list,
      inIntRange (it.menuItem.cost * it.quantity) := fun it hit => hfit it (h4.subset hit)
  obtain ⟨e1, e2⟩ := orderRow_of_inRange fmt _ hfit2
  refine ⟨qsort listOrderComp order.list, ?_, h2, h3, h4, h5⟩
  rw [h1, e1, e2]
  rfl

theorem unknown_command_rejected (fmt : FloatFmt) (menu : Menu) (order : Order)
    (line : List Char) (h1 : (tokenize line).1 ≠ cList) (h2 : (tokenize line).1 ≠ cAdd)
    (h3 : (tokenize line).1 ≠ cRemove) (h4 : (tokenize line).1 ≠ cQuit) :
    processLine fmt menu order line
      = { menu := menu, order := order,
          out := some (line ++ ['\n'] ++ "Invalid command\n\n".toList), quit := false } := by
  unfold processLine
  simp only [strcmp_eq_zero_iff]
  simp [h1, h2, h3, h4, invalidText]

theorem digitChar_isdigit (k : Nat) (h : k < 10) :
    isdigit (Nat.digitChar k) = true ∧ (Nat.digitChar k).toNat - '0'.toNat = k := by
  interval_cases k <;> decide

theorem scanDigits_digits (ds rest : List Char) (acc n : Nat)
    (h : ∀ c ∈ ds, isdigit c = true) :
    scanDigits (ds ++ rest) acc n
      = scanDigits rest (ds.foldl (fun a c => a * 10 + (c.toNat - '0'.toNat)) acc) (n + ds.length) := by
  induction ds generalizing acc n with
  | nil => simp
  | cons d t ih =>
    have hd : isdigit d = true := h d (List.mem_cons_self _ _)
    have ht : ∀ c ∈ t, isdigit c = true := fun c hc => h c (List.mem_cons_of_mem _ hc)
    rw [List.cons_append, scanDigits, if_pos hd, ih _ _ ht]
    simp only [List.foldl_cons, List.length_cons]
    congr 1
    omega

theorem toDigitsCore_spec (fuel n : Nat) (ds : List Char) (h : n < fuel) :
    ∃ pre, Nat.toDigitsCore 10 fuel n ds = pre ++ ds ∧ pre ≠ []
      ∧ (∀ c ∈ pre, isdigit c = true)
      ∧ ∀ acc, pre.foldl (fun a c => a * 10 + (c.toNat - '0'.toNat)) acc
          = acc * 10 ^ pre.length + n := by
  induction fuel generalizing n ds with
  | zero => omega
  | succ fuel ih =>
    have hd := digitChar_isdigit (n % 10) (Nat.mod_lt _ (by omega))
    unfold Nat.toDigitsCore
    simp only
    by_cases h0 : n / 10 = 0
    · rw [if_pos h0]
      refine ⟨[Nat.digitChar (n % 10)], rfl, by simp, ?_, ?_⟩
      · intro c hc
        rcases List.mem_singleton.mp hc with rfl
        exact hd.1
      · intro acc
        simp only [List.foldl_cons, List.foldl_nil, List.length_singleton, pow_one]
        rw [hd.2]
        omega
    · rw [if_neg h0]
      have hlt : n / 10 < fuel := by omega
      obtain ⟨pre, hpre, hne, hdig, hval⟩ := ih (n / 10) (Nat.digitChar (n % 10) :: ds) hlt
      refine ⟨pre ++ [Nat.digitChar (n % 10)], by rw [hpre]; simp, by simp, ?_, ?_⟩
      · intro c hc
        rcases List.mem_append.mp hc with h1 | h1
        · exact hdig c h1
        · rcases List.mem_singleton.mp h1 with rfl
          exact hd.1
      · intro acc
        rw [List.foldl_append, hval acc]
        simp only [List.foldl_cons, List.foldl_nil, List.length_append, List.length_singleton]
        rw [hd.2, pow_succ]
        have := Nat.div_add_mod n 10
        nlinarith [this]

theorem toDigits_spec (n : Nat) :
    Nat.toDigits 10 n ≠ [] ∧ (∀ c ∈ Nat.toDigits 10 n, isdigit c = true)
    ∧ (Nat.toDigits 10 n).foldl (fun a c => a * 10 + (c.toNat - '0'.toNat)) 0 = n := by
  obtain ⟨pre, hpre, hne, hdig, hval⟩ := toDigitsCore_spec (n + 1) n [] (by omega)
  have : Nat.toDigits 10 n = pre := by
    unfold Nat.toDigits
    rw [hpre, List.append_nil]
  rw [this]
  exact ⟨hne, hdig, by simpa using hval 0⟩


/-! ## Scanning a written record -/

theorem scanWord_word (w r : List Char) (h : ∀ c ∈ w, isspace c = false) :
    scanWord (w ++ ' ' :: r) = w := by
  induction w with
  | nil => simp [scanWord, isspace]
  | cons a t ih =>
    have ha : isspace a = false := h a (List.mem_cons_self _ _)
    have ht : ∀ c ∈ t, isspace c = false := fun c hc => h c (List.mem_cons_of_mem _ hc)
    simp [scanWord, ha, ih ht]

theorem skipSpace_word (w r : List Char) (hne : w ≠ []) (h : ∀ c ∈ w, isspace c = false) :
    skipSpace (w ++ r) = w ++ r := by
  cases w with
  | nil => exact absurd rfl hne
  | cons a t =>
    have ha : isspace a = false := h a (List.mem_cons_self _ _)
    simp [skipSpace, ha]

theorem scanStr_word (w r : List Char) (hne : w ≠ []) (h : ∀ c ∈ w, isspace c = false) :
    scanStr (w ++ ' ' :: r) = (w, w.length) := by
  unfold scanStr
  simp only [skipSpace_word w (' ' :: r) hne h, scanWord_word w r h, if_neg hne]
  simp

theorem scanStr_space_word (w r : List Char) (hne : w ≠ []) (h : ∀ c ∈ w, isspace c = false) :
    scanStr (' ' :: (w ++ ' ' :: r)) = (w, 1 + w.length) := by
  have hs : skipSpace (' ' :: (w ++ ' ' :: r)) = w ++ ' ' :: r := by
    rw [skipSpace, if_pos (by decide)]
    exact skipSpace_word w (' ' :: r) hne h
  unfold scanStr
  simp only [hs, scanWord_word w r h, if_neg hne]
  simp

theorem isdigit_not_space (c : Char) (h : isdigit c = true) : isspace c = false := by
  unfold isdigit at h
  simp only [Bool.and_eq_true, decide_eq_true_eq] at h
  unfold isspace
  have h1 : c ≠ ' ' := by rintro rfl; revert h; decide
  have h2 : c ≠ '\t' := by rintro rfl; revert h; decide
  have h3 : c ≠ '\n' := by rintro rfl; revert h; decide
  have h4 : c ≠ '\x0b' := by rintro rfl; revert h; decide
  have h5 : c ≠ '\x0c' := by rintro rfl; revert h; decide
  have h6 : c ≠ '\r' := by rintro rfl; revert h; decide
  simp [h1, h2, h3, h4, h5, h6]

theorem scanSigned_numeral (n : Nat) (r : List Char) :
    scanSigned (Nat.toDigits 10 n ++ ' ' :: r) = some ((n : Int), (Nat.toDigits 10 n).length) := by
  obtain ⟨hne, hdig, hval⟩ := toDigits_spec n
  have hscan : scanDigits (Nat.toDigits 10 n ++ ' ' :: r) 0 0 = (n, (Nat.toDigits 10 n).length) := by
    rw [scanDigits_digits _ _ 0 0 hdig, hval]
    simp [scanDigits, isdigit]
  obtain ⟨d, t, hdt⟩ := List.exists_cons_of_ne_nil hne
  have hd : isdigit d = true := hdig d (by rw [hdt]; exact List.mem_cons_self _ _)
  have hm : d ≠ '-' := by rintro rfl; revert hd; decide
  have hp : d ≠ '+' := by rintro rfl; revert hd; decide
  have hlen : (Nat.toDigits 10 n).length ≠ 0 := by rw [hdt]; simp
  rw [hdt] at hscan ⊢
  rw [List.cons_append] at hscan ⊢
  unfold scanSigned
  split
  · rename_i heq; cases heq; exact absurd rfl hm
  · rename_i heq; cases heq; exact absurd rfl hp
  · rw [hscan]
    simp

theorem scanInt_numeral (n : Nat) (r : List Char) (hpos : 0 < n) (hmax : (n : Int) ≤ INT_MAX) :
    scanInt (' ' :: (Nat.toDigits 10 n ++ ' ' :: r))
      = some ((n : Int), 1 + (Nat.toDigits 10 n).length) := by
  obtain ⟨hne, hdig, _⟩ := toDigits_spec n
  have hs : skipSpace (' ' :: (Nat.toDigits 10 n ++ ' ' :: r)) = Nat.toDigits 10 n ++ ' ' :: r := by
    rw [skipSpace, if_pos (by decide)]
    exact skipSpace_word _ _ hne (fun c hc => isdigit_not_space c (hdig c hc))
  have hv : toInt32 (clampLong (n : Int)) = (n : Int) := by
    unfold INT_MAX at hmax
    unfold toInt32 clampLong
    split_ifs <;> omega
  unfold scanInt
  simp only [hs, scanSigned_numeral n r, hv]
  simp

theorem nameLoop_copy (s : List Char) (i : Nat) (hlen : s.length + i ≤ 20)
    (hnl : '\n' ∉ s) (heof : EOFchar ∉ s) : nameLoop s i = some s := by
  induction s generalizing i with
  | nil => rfl
  | cons c cs ih =>
    have hc1 : c ≠ '\n' := fun e => hnl (by simp [e])
    have hc2 : c ≠ EOFchar := fun e => heof (by simp [e])
    have h1 : '\n' ∉ cs := fun e => hnl (by simp [e])
    have h2 : EOFchar ∉ cs := fun e => heof (by simp [e])
    simp only [List.length_cons] at hlen
    unfold nameLoop
    have hi : i < MAX_NUM_CHAR_NAME := by unfold MAX_NUM_CHAR_NAME; omega
    have hi2 : i ≠ MAX_NUM_CHAR_NAME - 1 := by unfold MAX_NUM_CHAR_NAME; omega
    rw [if_pos ⟨hc1, hc2, hi⟩, if_neg hi2, ih (i + 1) (by omega) h1 h2]
    rfl


theorem showInt_pos (v : Int) (h : 0 < v) :
    showInt v = Nat.toDigits 10 v.toNat ∧ ((v.toNat : Nat) : Int) = v ∧ 0 < v.toNat := by
  cases v with
  | ofNat n => exact ⟨rfl, by simp, by simpa using h⟩
  | negSucc n => exact absurd h (by simp [Int.negSucc_lt_zero])

theorem dropWhile_space_name (name : List Char) (h : name.head? ≠ some ' ') :
    (' ' :: name).dropWhile (fun c => c = ' ') = name := by
  cases name with
  | nil => simp [List.dropWhile]
  | cons a t =>
    have ha : a ≠ ' ' := by
      intro e; apply h; simp [e]
    simp [List.dropWhile, ha]

/-- The fields the scans take from a written record. -/
theorem recordLine_fields (it : MenuItem) (hv : validItem it) :
    scanStr (recordLine it) = (it.id, it.id.length)
    ∧ scanStr ((recordLine it).drop it.id.length) = (it.category, 1 + it.category.length)
    ∧ scanInt ((recordLine it).drop (it.id.length + (1 + it.category.length)))
        = some (it.cost, 1 + (showInt it.cost).length)
    ∧ ((recordLine it).drop (it.id.length + (1 + it.category.length)
          + (1 + (showInt it.cost).length))).dropWhile (fun c => c = ' ') = it.name := by
  obtain ⟨⟨hid, hids, hc1, _, hcs, hpos, hmax, _, _, hhead, _⟩, _⟩ := hv
  have hidne : it.id ≠ [] := by intro e; rw [e] at hid; simp at hid
  have hcne : it.category ≠ [] := by intro e; rw [e] at hc1; simp at hc1
  obtain ⟨hshow, hcast, hnpos⟩ := showInt_pos it.cost hpos
  have hd1 : (recordLine it).drop it.id.length
      = ' ' :: (it.category ++ ' ' :: (showInt it.cost ++ ' ' :: it.name)) := by
    unfold recordLine
    exact List.drop_left _ _
  have hd2 : (recordLine it).drop (it.id.length + (1 + it.category.length))
      = ' ' :: (showInt it.cost ++ ' ' :: it.name) := by
    rw [← List.drop_drop, hd1, Nat.add_comm 1, List.drop_succ_cons]
    exact List.drop_left _ _
  have hd3 : (recordLine it).drop (it.id.length + (1 + it.category.length)
        + (1 + (showInt it.cost).length)) = ' ' :: it.name := by
    rw [← List.drop_drop, hd2, Nat.add_comm 1, List.drop_succ_cons]
    exact List.drop_left _ _
  refine ⟨?_, ?_, ?_, ?_⟩
  · unfold recordLine
    exact scanStr_word _ _ hidne hids
  · rw [hd1]
    exact scanStr_space_word _ _ hcne hcs
  · rw [hd2, hshow]
    have := scanInt_numeral it.cost.toNat it.name hnpos (by rw [hcast]; exact hmax)
    rw [hcast] at this
    exact this
  · rw [hd3]
    exact dropWhile_space_name _ hhead


/-- What follows the id, category and cost fields of a written record. -/
theorem recordLine_tail (it : MenuItem) :
    (recordLine it).drop (it.id.length + (1 + it.category.length)
      + (1 + (showInt it.cost).length)) = ' ' :: it.name := by
  have hd1 : (recordLine it).drop it.id.length
      = ' ' :: (it.category ++ ' ' :: (showInt it.cost ++ ' ' :: it.name)) := by
    unfold recordLine
    exact List.drop_left _ _
  have hd2 : (recordLine it).drop (it.id.length + (1 + it.category.length))
      = ' ' :: (showInt it.cost ++ ' ' :: it.name) := by
    rw [← List.drop_drop, hd1, Nat.add_comm 1, List.drop_succ_cons]
    exact List.drop_left _ _
  rw [← List.drop_drop, hd2, Nat.add_comm 1, List.drop_succ_cons]
  exact List.drop_left _ _

theorem parseRecord_recordLine (menu : Menu) (it : MenuItem) (hv : validItem it)
    (hnew : it.id ∉ menu.list.map MenuItem.id) :
    parseRecord menu (recordLine it) = Parsed.item it := by
  obtain ⟨h1, h2, h3, h4⟩ := recordLine_fields it hv
  have h5 := recordLine_tail it
  obtain ⟨⟨hid, _, _, hc15, _, hpos, _, hn1, hn20, _, hnl⟩, heof, _, _, _, hfit⟩ := hv
  have hov : ¬ copyOverlaps (recordLine it) := by
    unfold copyOverlaps copyOffset
    simp only [h1, h2, h3, h5]
    simp only [List.length_cons]
    have e : (1 + (showInt it.cost).length) = (showInt it.cost).length + 1 := Nat.add_comm _ _
    rw [e]
    omega
  have hname : nameField (recordLine it) = it.name := by
    unfold nameField
    simp only [h1, h2, h3]
    exact h4
  have hidcheck : ¬ (it.id.get? 0 = none ∨ it.id.get? 1 = none ∨ it.id.get? 2 = none
      ∨ it.id.get? 3 = none ∨ it.id.get? 4 ≠ none) := by
    rw [fourth_byte_check]; simpa using hid
  have hdup : ¬ (menu.list.any (fun m => decide (strcmp it.id m.id = 0)) = true) := by
    intro h
    obtain ⟨m, hm, he⟩ := List.any_eq_true.mp h
    apply hnew
    have : it.id = m.id := (strcmp_eq_zero_iff _ _).mp (by simpa using he)
    exact List.mem_map.mpr ⟨m, hm, this.symm⟩
  have hgood : (List.range (MAX_NUM_CHAR_CATEGORY + 1)).any
      (fun i => decide (it.category.get? i = none)) = true := by
    rw [List.any_eq_true]
    refine ⟨15, by decide, ?_⟩
    simp only [decide_eq_true_eq, List.get?_eq_none]
    exact hc15
  have hhead : ¬ (it.name.head? = some '\n' ∨ it.name.head? = some EOFchar) := by
    rintro (h | h)
    · exact hnl (List.mem_of_mem_head? h)
    · exact heof (List.mem_of_mem_head? h)
  have hloop : nameLoop it.name 0 = some it.name := nameLoop_copy _ 0 (by omega) hnl heof
  unfold parseRecord
  simp only [h1, h2, h3, hname]
  rw [if_neg hidcheck, if_neg hdup, if_neg (by simpa using hgood), if_neg (by omega),
    if_neg hov, if_neg hhead, hloop]

theorem recordLine_no_newline (it : MenuItem) (hv : validItem it) : '\n' ∉ recordLine it := by
  obtain ⟨⟨_, hids, _, _, hcs, hpos, _, _, _, _, hnl⟩, _⟩ := hv
  obtain ⟨hshow, _, _⟩ := showInt_pos it.cost hpos
  obtain ⟨_, hdig, _⟩ := toDigits_spec it.cost.toNat
  unfold recordLine
  intro h
  simp only [List.mem_append, List.mem_cons] at h
  have hsp : isspace '\n' = true := by decide
  rcases h with h | h | h | h | h | h | h
  · rw [hids _ h] at hsp; cases hsp
  · revert h; decide
  · rw [hcs _ h] at hsp; cases hsp
  · revert h; decide
  · rw [hshow] at h
    rw [isdigit_not_space _ (hdig _ h)] at hsp; cases hsp
  · revert h; decide
  · exact hnl h

theorem recordLine_no_nul (it : MenuItem) (hv : validItem it) : '\x00' ∉ recordLine it := by
  obtain ⟨⟨_, _, _, _, _, hpos, _, _, _, _, _⟩, _, hn1, hn2, hn3, _⟩ := hv
  obtain ⟨hshow, _, _⟩ := showInt_pos it.cost hpos
  obtain ⟨_, hdig, _⟩ := toDigits_spec it.cost.toNat
  unfold recordLine
  intro h
  simp only [List.mem_append, List.mem_cons] at h
  rcases h with h | h | h | h | h | h | h
  · exact hn1 h
  · revert h; decide
  · exact hn2 h
  · revert h; decide
  · rw [hshow] at h
    have := hdig _ h
    revert this; decide
  · revert h; decide
  · exact hn3 h

theorem listMenuComp_le_iff (a b : MenuItem) :
    listMenuComp a b ≤ 0 ↔
      strcmp a.category b.category < 0
      ∨ (a.category = b.category ∧ strcmp a.id b.id ≤ 0) := by
  unfold listMenuComp
  by_cases hc : strcmp a.category b.category = 0
  · have he := (strcmp_eq_zero_iff _ _).mp hc
    simp only [hc, ne_eq, not_true_eq_false, if_false]
    by_cases hi : strcmp a.id b.id = 0
    · simp [hi, he]
    · simp only [hi, ne_eq, not_false_eq_true, if_true]
      simp [he]
  · have hne : a.category ≠ b.category := fun e => hc ((strcmp_eq_zero_iff _ _).mpr e)
    simp only [hc, ne_eq, not_false_eq_true, if_true]
    constructor
    · intro h; left; exact lt_of_le_of_ne h hc
    · intro h
      rcases h with h | h
      · exact le_of_lt h
      · exact absurd h.1 hne

theorem listMenuComp_total (a b : MenuItem) :
    listMenuComp a b ≤ 0 ∨ listMenuComp b a ≤ 0 := by
  rw [listMenuComp_le_iff, listMenuComp_le_iff]
  rcases lt_trichotomy (strcmp a.category b.category) 0 with h | h | h
  · left; left; exact h
  · have he := (strcmp_eq_zero_iff _ _).mp h
    rcases strcmp_le_total a.id b.id with h' | h'
    · left; right; exact ⟨he, h'⟩
    · right; right; exact ⟨he.symm, h'⟩
  · right; left
    rw [strcmp_swap a.category b.category]
    omega

theorem listMenuComp_trans (a b c : MenuItem) (h1 : listMenuComp a b ≤ 0)
    (h2 : listMenuComp b c ≤ 0) : listMenuComp a c ≤ 0 := by
  rw [listMenuComp_le_iff] at h1 h2 ⊢
  rcases h1 with h1 | ⟨h1, h1'⟩
  · rcases h2 with h2 | ⟨h2, _⟩
    · left; exact strcmp_trans _ _ _ h1 h2
    · left; rw [← h2]; exact h1
  · rcases h2 with h2 | ⟨h2, h2'⟩
    · left; rw [h1]; exact h2
    · right; exact ⟨h1.trans h2, strcmp_le_trans _ _ _ h1' h2'⟩

/-- The line `list menu`, in exactly this spelling, writes the whole menu:
one row for every menu item, sorted by category and then by id. -/
theorem list_menu_exact_rows (fmt : FloatFmt) (menu : Menu) (order : Order) :
    (processLine fmt menu order "list menu".toList).out
      = some ("list menu\n".toList ++ menuHeader
          ++ ((qsort listMenuComp menu.list).map (menuRow fmt)).flatten ++ ['\n'])
    ∧ (qsort listMenuComp menu.list).Perm menu.list
    ∧ (qsort listMenuComp menu.list).Pairwise (fun a b =>
        strcmp a.category b.category < 0
        ∨ (a.category = b.category ∧ strcmp a.id b.id ≤ 0)) := by
  refine ⟨?_, qsort_perm _ _, ?_⟩
  · have ht : tokenize "list menu".toList = (cList, cMenu, []) := by decide
    have hs : strcmp "list menu".toList "list menu".toList = 0 :=
      (strcmp_eq_zero_iff _ _).mpr rfl
    unfold processLine
    rw [ht]
    simp only [strcmp_eq_zero_iff]
    simp only [listMenuItems, menuRows, if_pos hs]
    simp
  · refine (qsort_pairwise listMenuComp listMenuComp_total listMenuComp_trans menu.list).imp ?_
    intro a b hab
    exact (listMenuComp_le_iff a b).mp hab

/-! ## Further instances and evaluations at concrete inputs -/

/-- Claim C12, at the failing input.  The line `list  menu`, with two
spaces, has the words `list` and `menu` and no third word, but the text
written is the header of a category listing for the whole line, without any
row, although the menu holds an item. -/
theorem list_menu_spacing :
    tokenize "list  menu".toList = (cList, cMenu, [])
    ∧ (processLine blankFmt colaMenu initialOrder "list  menu".toList).out
      = some ("list category list  menu\n".toList ++ menuHeader ++ ['\n'])
    ∧ menuRows colaMenu listMenuComp isCategory "list  menu".toList = [] := by
  decide

theorem list_category_rows_witness :
    (∃ rows : List MenuItem,
      (processLine floatFmt threeMenu initialOrder "list category Drinks".toList).out
        = some ("list category ".toList ++ "Drinks".toList ++ ['\n']
            ++ "ID   Name                 Category        Cost\n".toList
            ++ (rows.map (fun m =>
                  padRight 5 m.id ++ padRight 21 m.name ++ padRight 16 m.category
                    ++ '$' :: floatFmt [m.cost] ++ ['\n'])).flatten
            ++ ['\n'])
      ∧ rows.Perm (threeMenu.list.filter (fun m => decide (m.category = "Drinks".toList)))
      ∧ rows.Pairwise (fun a b => strcmp a.id b.id < 0)
      ∧ ((∀ m ∈ threeMenu.list, m.category ≠ "Drinks".toList) →
          (processLine floatFmt threeMenu initialOrder "list category Drinks".toList).out
            = some ("list category ".toList ++ "Drinks".toList ++ ['\n']
                ++ "ID   Name                 Category        Cost\n".toList ++ ['\n'])))
    ∧ (processLine floatFmt threeMenu initialOrder "list category Drinks".toList).out
        = some ("list category Drinks\n".toList
            ++ "ID   Name                 Category        Cost\n".toList
            ++ "A001 Cola                 Drinks          $  1.50\n".toList
            ++ "B002 Tea                  Drinks          $  1.20\n".toList
            ++ "\n".toList) :=
  ⟨list_category_rows floatFmt threeMenu initialOrder "list category Drinks".toList
    "Drinks".toList (by decide) (by decide), by decide⟩

theorem list_order_rows_witness :
    (∃ rows : List OrderItem,
      (processLine floatFmt twoMenu twoLines "list order".toList).out
        = some ("list order".toList ++ ['\n']
            ++ "ID   Name                 Quantity Category        Cost\n".toList
            ++ (if rows.length = 0 then
                  "Total                                              $  0.00\n\n".toList
                else
                  (rows.map (fun it =>
                      padRight 5 it.menuItem.id ++ padRight 21 it.menuItem.name
                        ++ padLeft 8 (showInt it.quantity) ++ [' ']
                        ++ padRight 16 it.menuItem.category
                        ++ '$' :: floatFmt [it.menuItem.cost * it.quantity] ++ ['\n'])).flatten
                    ++ "Total                                              $".toList
                    ++ floatFmt (rows.map (fun it => it.menuItem.cost * it.quantity))
                    ++ "\n\n".toList))
      ∧ (processLine floatFmt twoMenu twoLines "list order".toList).order
          = { list := rows, capacity := twoLines.capacity }
      ∧ (processLine floatFmt twoMenu twoLines "list order".toList).menu = twoMenu
      ∧ rows.Perm twoLines.list
      ∧ rows.Pairwise (fun a b =>
          a.menuItem.cost * a.quantity > b.menuItem.cost * b.quantity
          ∨ (a.menuItem.cost * a.quantity = b.menuItem.cost * b.quantity
              ∧ strcmp a.menuItem.id b.menuItem.id < 0)))
    ∧ (processLine floatFmt twoMenu twoLines "list order".toList).out
        = some ("list order\n".toList
            ++ "ID   Name                 Quantity Category        Cost\n".toList
            ++ "B002 Tea                         5 Drinks          $  6.00\n".toList
            ++ "A001 Cola                        2 Drinks          $  3.00\n".toList
            ++ "Total                                              $  9.00\n\n".toList)
    ∧ (processLine floatFmt twoMenu twoLines "list order".toList).order.list
        = [{ menuItem := tea, quantity := 5 }, { menuItem := cola, quantity := 2 }] :=
  ⟨list_order_rows floatFmt twoMenu twoLines "list order".toList [] (by decide) (by decide)
    (by decide), by decide, by decide⟩

theorem unknown_command_rejected_witness :
    processLine blankFmt colaMenu fiveColas "foo bar".toList
      = { menu := colaMenu, order := fiveColas,
          out := some ("foo bar".toList ++ ['\n'] ++ "Invalid command\n\n".toList),
          quit := false } :=
  unknown_command_rejected blankFmt colaMenu fiveColas "foo bar".toList
    (by decide) (by decide) (by decide) (by decide)

/-- Claim C18, at the failing input.  On the stream `abc`, whose only line
is not ended by a newline, `readLine` returns `ab`: the last character is
not part of the line returned. -/
theorem readLine_drops_last :
    readLine "abc".toList = some ("ab".toList, "c".toList) := by
  decide

theorem readAll_stuck (c : Char) (hc : c ≠ '\n') (fuel : Nat) : readAll fuel [c] = none := by
  induction fuel with
  | zero => rfl
  | succ n ih =>
    have hr : readLine [c] = some ([], [c]) := by
      have := readLine_unterminated [c] (by simp) (by simpa using hc.symm)
      simpa using this
    rw [readAll, hr]
    simp [ih]

/-- Claim C19, at the failing input.  On the stream of the line `ab`, ended
by a newline, and the line `cd`, not ended by one, the second call of
`readLine` returns `c` and leaves the read position before `d`; every later
call returns the empty line and leaves it there, so the end-of-input result
never comes, however many calls are made. -/
theorem readLine_never_ends :
    readLine "ab\ncd".toList = some ("ab".toList, "cd".toList)
    ∧ readLine "cd".toList = some ("c".toList, "d".toList)
    ∧ readLine "d".toList = some ([], "d".toList)
    ∧ ∀ fuel, readAll fuel "ab\ncd".toList = none := by
  refine ⟨by decide, by decide, by decide, ?_⟩
  intro fuel
  have h1 : readLine "ab\ncd".toList = some ("ab".toList, "cd".toList) := by decide
  have h2 : readLine "cd".toList = some ("c".toList, "d".toList) := by decide
  cases fuel with
  | zero => rfl
  | succ n =>
    rw [readAll, h1]
    cases n with
    | zero => rfl
    | succ k =>
      simp only
      rw [readAll, h2]
      simp only
      rw [show "d".toList = ['d'] from rfl, readAll_stuck 'd' (by decide) k]
      rfl

/-- Claim C20, at the failing input.  On an order holding five of `A001`,
the line `remove A001 -3` is accepted and leaves eight of `A001`. -/
theorem negative_remove_adds :
    (tokenize "remove A001 -3".toList).1 = cRemove
    ∧ atoi "-3".toList = -3
    ∧ (processLine blankFmt colaMenu fiveColas "remove A001 -3".toList).order.list
      = [{ menuItem := cola, quantity := 8 }]
    ∧ (processLine blankFmt colaMenu fiveColas "remove A001 -3".toList).out
      = some "remove A001 -3\n\n".toList := by
  decide

/-! ## The comparators as strict total orders -/

theorem listMenuComp_swap (a b : MenuItem) : listMenuComp b a = - listMenuComp a b := by
  unfold listMenuComp
  rw [strcmp_swap a.category b.category, strcmp_swap a.id b.id]
  split_ifs <;> omega

theorem listMenuComp_lt_iff (a b : MenuItem) :
    listMenuComp a b < 0 ↔
      strcmp a.category b.category < 0
      ∨ (a.category = b.category ∧ strcmp a.id b.id < 0) := by
  unfold listMenuComp
  by_cases hc : strcmp a.category b.category = 0
  · have he := (strcmp_eq_zero_iff _ _).mp hc
    simp only [hc, ne_eq, not_true_eq_false, if_false]
    by_cases hi : strcmp a.id b.id = 0
    · simp [hi]
    · simp only [hi, ne_eq, not_false_eq_true, if_true]
      simp [he]
  · have hne : a.category ≠ b.category := fun e => hc ((strcmp_eq_zero_iff _ _).mpr e)
    simp only [hc, ne_eq, not_false_eq_true, if_true]
    constructor
    · intro h; left; exact h
    · intro h
      rcases h with h | h
      · exact h
      · exact absurd h.1 hne

theorem listMenuComp_lt_trans (a b c : MenuItem) (h1 : listMenuComp a b < 0)
    (h2 : listMenuComp b c < 0) : listMenuComp a c < 0 := by
  rw [listMenuComp_lt_iff] at h1 h2 ⊢
  rcases h1 with h1 | ⟨h1, h1'⟩
  · rcases h2 with h2 | ⟨h2, _⟩
    · left; exact strcmp_trans _ _ _ h1 h2
    · left; rw [← h2]; exact h1
  · rcases h2 with h2 | ⟨h2, h2'⟩
    · left; rw [h1]; exact h2
    · right; exact ⟨h1.trans h2, strcmp_trans _ _ _ h1' h2'⟩

theorem listMenuComp_zero (a b : MenuItem) (h : listMenuComp a b = 0) : a.id = b.id := by
  unfold listMenuComp at h
  split_ifs at h with h1 h2
  · exact absurd h h1
  · exact absurd h h2
  · exact (strcmp_eq_zero_iff _ _).mp (by simpa using h2)

theorem listOrderComp_swap (a b : OrderItem) : listOrderComp b a = - listOrderComp a b := by
  unfold listOrderComp
  rw [strcmp_swap a.menuItem.id b.menuItem.id]
  split_ifs <;> omega

theorem listOrderComp_lt_iff (a b : OrderItem) :
    listOrderComp a b < 0 ↔
      lineCents a > lineCents b
      ∨ (lineCents a = lineCents b ∧ strcmp a.menuItem.id b.menuItem.id < 0) := by
  unfold listOrderComp lineCents
  split_ifs with h1 h2
  · simp [h1]
  · constructor
    · intro h; omega
    · intro h; rcases h with h | h <;> omega
  · have heq : toInt32 (a.menuItem.cost * a.quantity) = toInt32 (b.menuItem.cost * b.quantity) := by
      omega
    constructor
    · intro h; exact Or.inr ⟨heq, h⟩
    · intro h
      rcases h with h | h
      · omega
      · exact h.2

theorem listOrderComp_lt_trans (a b c : OrderItem) (h1 : listOrderComp a b < 0)
    (h2 : listOrderComp b c < 0) : listOrderComp a c < 0 := by
  rw [listOrderComp_lt_iff] at h1 h2 ⊢
  rcases h1 with h1 | ⟨h1, h1'⟩
  · rcases h2 with h2 | ⟨h2, _⟩
    · left; omega
    · left; omega
  · rcases h2 with h2 | ⟨h2, h2'⟩
    · left; omega
    · right; exact ⟨by omega, strcmp_trans _ _ _ h1' h2'⟩

theorem listOrderComp_zero (a b : OrderItem) (h : listOrderComp a b = 0) :
    a.menuItem.id = b.menuItem.id := by
  unfold listOrderComp at h
  by_cases h1 : toInt32 (a.menuItem.cost * a.quantity) > toInt32 (b.menuItem.cost * b.quantity)
  · rw [if_pos h1] at h; omega
  · rw [if_neg h1] at h
    by_cases h2 : toInt32 (a.menuItem.cost * a.quantity) < toInt32 (b.menuItem.cost * b.quantity)
    · rw [if_pos h2] at h; omega
    · rw [if_neg h2] at h
      exact (strcmp_eq_zero_iff _ _).mp h

/-- Claim C21.  Each of the comparators `listMenuComp`, `listCategoryComp`
and `listOrderComp` orders its items strictly and totally: `compare a b` is
negative exactly when `compare b a` is positive; negative results chain
(`compare a b < 0` and `compare b c < 0` give `compare a c < 0`); and
`compare a b` is zero only if `a` and `b` have the same id. -/
theorem comparators_strict_total :
    (∀ a b c : MenuItem,
      (listMenuComp a b < 0 ↔ listMenuComp b a > 0)
      ∧ (listMenuComp a b < 0 → listMenuComp b c < 0 → listMenuComp a c < 0)
      ∧ (listMenuComp a b = 0 → a.id = b.id))
    ∧ (∀ a b c : MenuItem,
      (listCategoryComp a b < 0 ↔ listCategoryComp b a > 0)
      ∧ (listCategoryComp a b < 0 → listCategoryComp b c < 0 → listCategoryComp a c < 0)
      ∧ (listCategoryComp a b = 0 → a.id = b.id))
    ∧ (∀ a b c : OrderItem,
      (listOrderComp a b < 0 ↔ listOrderComp b a > 0)
      ∧ (listOrderComp a b < 0 → listOrderComp b c < 0 → listOrderComp a c < 0)
      ∧ (listOrderComp a b = 0 → a.menuItem.id = b.menuItem.id)) := by
  refine ⟨fun a b c => ⟨?_, listMenuComp_lt_trans a b c, listMenuComp_zero a b⟩,
    fun a b c => ⟨?_, strcmp_trans _ _ _, fun h => (strcmp_eq_zero_iff _ _).mp h⟩,
    fun a b c => ⟨?_, listOrderComp_lt_trans a b c, listOrderComp_zero a b⟩⟩
  · rw [listMenuComp_swap a b]; omega
  · show strcmp a.id b.id < 0 ↔ strcmp b.id a.id > 0
    rw [strcmp_swap a.id b.id]; omega
  · rw [listOrderComp_swap a b]; omega


/-! ## The capacity invariant -/

/-- A capacity `5 * 2 ^ k` below `5 * 2 ^ 28` can be doubled in an `int`. -/
theorem double_capacity (c : Int) (k : Nat) (hk : c = 5 * 2 ^ k) (hlt : c < 1342177280) :
    toInt32 (c * 2) = 5 * 2 ^ (k + 1) ∧ c * 2 ≤ 1342177280 := by
  have hk28 : k < 28 := by
    by_contra hge
    have : (2 : Int) ^ 28 ≤ 2 ^ k := pow_le_pow_right₀ (by norm_num) (by omega)
    norm_num at this
    omega
  have h27 : (2 : Int) ^ k ≤ 2 ^ 27 := pow_le_pow_right₀ (by norm_num) (by omega)
  have hpos : (0 : Int) < 2 ^ k := by positivity
  norm_num at h27
  rw [pow_succ]
  constructor
  · rw [toInt32_of_inRange _ (by unfold INT_MIN; omega) (by unfold INT_MAX; omega)]
    omega
  · omega

theorem pushOrder_inv (o : Order) (m : MenuItem) (q : Int) (h : orderInv o)
    (hsmall : o.list.length + 1 < CAPACITY_LIMIT) : orderInv (pushOrder o m q) := by
  obtain ⟨hlt, k, hk⟩ := h
  unfold CAPACITY_LIMIT at hsmall
  unfold pushOrder orderInv
  simp only [List.length_append, List.length_singleton]
  split
  · obtain ⟨h1, h2⟩ := double_capacity o.capacity k hk (by omega)
    exact ⟨by rw [h1, pow_succ]; push_cast; omega, k + 1, h1⟩
  · exact ⟨by push_cast; omega, k, hk⟩

theorem pushOrder_length (o : Order) (m : MenuItem) (q : Int) :
    (pushOrder o m q).list.length = o.list.length + 1 := by
  simp [pushOrder]

theorem addMenuLoop_length (X tok : List Char) (l : List MenuItem) (o o1 : Order)
    (found f1 : Bool) (hr : addMenuLoop X tok l o found = some (o1, f1)) :
    o.list.length ≤ o1.list.length := by
  induction l generalizing o found with
  | nil =>
    simp only [addMenuLoop, Option.some.injEq, Prod.mk.injEq] at hr
    rw [← hr.1]
  | cons m rest ih =>
    unfold addMenuLoop at hr
    split_ifs at hr
    · have := ih _ _ hr
      rw [pushOrder_length] at this
      omega
    · exact ih _ _ hr

theorem addMenuLoop_inv (X tok : List Char) (l : List MenuItem) (o o1 : Order) (found f1 : Bool)
    (h : orderInv o) (hr : addMenuLoop X tok l o found = some (o1, f1))
    (hsmall : o1.list.length < CAPACITY_LIMIT) : orderInv o1 := by
  induction l generalizing o found with
  | nil =>
    simp only [addMenuLoop, Option.some.injEq, Prod.mk.injEq] at hr
    rw [← hr.1]; exact h
  | cons m rest ih =>
    unfold addMenuLoop at hr
    split_ifs at hr
    · have hlen := addMenuLoop_length _ _ _ _ _ _ _ hr
      rw [pushOrder_length] at hlen
      exact ih _ _ (pushOrder_inv o m _ h (by omega)) hr
    · exact ih _ _ h hr

theorem addBranch_inv (menu : Menu) (order : Order) (input X tok : List Char)
    (h : orderInv order)
    (hsmall : (addBranch menu order input X tok).order.list.length < CAPACITY_LIMIT) :
    orderInv (addBranch menu order input X tok).order := by
  unfold addBranch at hsmall ⊢
  rcases split_at_first_id X order.list with hfresh | ⟨pre, it, post, hl, hpre, hit⟩
  · rw [addOrderLoop_absent X tok order.list hfresh] at hsmall ⊢
    simp only at hsmall ⊢
    cases hr : addMenuLoop X tok menu.list order false with
    | none => exact h
    | some r =>
      obtain ⟨o1, f1⟩ := r
      rw [hr] at hsmall
      simp only at hsmall ⊢
      have hs : o1.list.length < CAPACITY_LIMIT := by
        split at hsmall <;> exact hsmall
      have := addMenuLoop_inv X tok menu.list order o1 false f1 h hr hs
      split <;> exact this
  · rw [hl, addOrderLoop_found X tok pre post it hpre hit]
    by_cases hq : atoi tok < 1
    · rw [if_pos hq]; exact h
    · rw [if_neg hq]
      obtain ⟨hlt, hk⟩ := h
      refine ⟨?_, hk⟩
      rw [hl] at hlt
      simpa using hlt

theorem removeBranch_inv (menu : Menu) (order : Order) (input X tok : List Char)
    (h : orderInv order) : orderInv (removeBranch menu order input X tok).order := by
  unfold removeBranch
  rcases split_at_first_id X order.list with hfresh | ⟨pre, it, post, hl, hpre, hit⟩
  · rw [removeLoop_absent X tok order.list false hfresh]
    simp only
    split <;> exact h
  · rw [hl, removeLoop_found X tok pre post it false hpre hit]
    obtain ⟨hlt, hk⟩ := h
    rw [hl] at hlt
    simp only [List.length_append, List.length_cons] at hlt
    push_cast at hlt
    split_ifs
    · exact ⟨by simp only [List.length_append]; push_cast; omega, hk⟩
    · exact ⟨by simp only [List.length_append, List.length_cons]; push_cast; omega, hk⟩
    · refine ⟨?_, hk⟩
      rw [hl]
      simp only [List.length_append, List.length_cons]; push_cast; omega

theorem processLine_inv (fmt : FloatFmt) (menu : Menu) (order : Order) (input : List Char)
    (h : orderInv order)
    (hsmall : (processLine fmt menu order input).order.list.length < CAPACITY_LIMIT) :
    orderInv (processLine fmt menu order input).order := by
  unfold processLine at hsmall ⊢
  simp only at hsmall ⊢
  split_ifs at hsmall ⊢
  all_goals first
    | exact h
    | exact addBranch_inv menu order input _ _ h hsmall
    | exact removeBranch_inv menu order input _ _ h
    | skip
  · obtain ⟨hlt, hk⟩ := h
    refine ⟨?_, hk⟩
    show ((qsort listOrderComp order.list).length : Int) < order.capacity
    rw [(qsort_perm listOrderComp order.list).length_eq]
    exact hlt

theorem processLine_quit (fmt : FloatFmt) (menu : Menu) (order : Order) (input : List Char)
    (hq : (processLine fmt menu order input).quit = true) :
    (processLine fmt menu order input).order = order := by
  unfold processLine at hq ⊢
  simp only at hq ⊢
  split_ifs at hq ⊢
  all_goals first
    | rfl
    | (exfalso; revert hq; simp; done)
    | skip
  · exfalso
    revert hq
    unfold addBranch
    split
    · simp
    · simp
    · split
      · simp
      · split <;> simp
  · exfalso
    revert hq
    unfold removeBranch
    split
    · simp
    · simp
    · split <;> simp

theorem smallRun_head (fmt : FloatFmt) (menu : Menu) (order : Order) (lines : List (List Char))
    (h : smallRun fmt menu order lines) : order.list.length < CAPACITY_LIMIT := by
  cases lines with
  | nil => exact h
  | cons line rest => exact h.1

theorem runLines_inv (fmt : FloatFmt) (lines : List (List Char)) (menu : Menu) (order : Order)
    (h : orderInv order) (hrun : smallRun fmt menu order lines) :
    orderInv (runLines fmt menu order lines).2 := by
  induction lines generalizing menu order with
  | nil => exact h
  | cons line rest ih =>
    unfold runLines
    by_cases hq : (processLine fmt menu order line).quit = true
    · rw [if_pos hq]
      show orderInv (processLine fmt menu order line).order
      rw [processLine_quit fmt menu order line hq]
      exact h
    · rw [if_neg hq]
      have hrest := hrun.2 (by simpa using hq)
      exact ih _ _ (processLine_inv fmt menu order line h (smallRun_head _ _ _ _ hrest)) hrest

theorem growMenu_inv (m : Menu) (h : menuInv m) (hsmall : m.list.length < CAPACITY_LIMIT) :
    ((growMenu m).list.length : Int) < (growMenu m).capacity
    ∧ ∀ item, menuInv { (growMenu m) with list := (growMenu m).list ++ [item] } := by
  obtain ⟨hle, k, hk⟩ := h
  unfold CAPACITY_LIMIT at hsmall
  have hpos : 0 < m.capacity := by rw [hk]; positivity
  unfold growMenu
  split
  · obtain ⟨h1, h2⟩ := double_capacity m.capacity k hk (by omega)
    have h3 : toInt32 (m.capacity * 2) = m.capacity * 2 := by rw [h1, hk, pow_succ]; ring
    refine ⟨by simp only; omega, fun item => ⟨?_, k + 1, h1⟩⟩
    simp only [List.length_append, List.length_singleton]; push_cast; omega
  · refine ⟨by omega, fun item => ⟨?_, k, hk⟩⟩
    simp only [List.length_append, List.length_singleton]; push_cast; omega

theorem loadPasses_inv (fuel : Nat) (menu : Menu) (s : List Char)
    (h : menu.list.length ≤ CAPACITY_LIMIT → menuInv menu) :
    ∀ m ∈ loadPasses fuel menu s, m.list.length < CAPACITY_LIMIT →
      menuInv m ∧ ((growMenu m).list.length : Int) < (growMenu m).capacity := by
  induction fuel generalizing menu s with
  | zero => intro m hm; cases hm
  | succ n ih =>
    intro m hm hsmall
    unfold loadPasses at hm
    split at hm
    · cases hm
    · rcases List.mem_cons.mp hm with rfl | hm
      · exact ⟨h (by omega), (growMenu_inv m (h (by omega)) hsmall).1⟩
      · split at hm
        · refine ih _ _ ?_ m hm hsmall
          intro hle
          simp only [List.length_append, List.length_singleton, growMenu_list] at hle
          exact (growMenu_inv menu (h (by omega)) (by omega)).2 _
        · cases hm

theorem readMenuLoop_inv (fuel : Nat) (menu m1 : Menu) (s : List Char)
    (h : menu.list.length ≤ CAPACITY_LIMIT → menuInv menu)
    (hr : readMenuLoop fuel menu s = some (Loaded.menu m1))
    (hsmall : m1.list.length ≤ CAPACITY_LIMIT) : menuInv m1 := by
  induction fuel generalizing menu s with
  | zero => cases hr
  | succ n ih =>
    unfold readMenuLoop at hr
    split at hr
    · cases hr; exact h hsmall
    · split at hr
      · cases hr
      · cases hr
      · refine ih _ _ ?_ hr
        intro hle
        simp only [List.length_append, List.length_singleton, growMenu_list] at hle
        exact (growMenu_inv menu (h (by omega)) (by omega)).2 _

/-- Claim C22, amended.  In every state that a finite sequence of command
lines reaches from the initial order (count 0, capacity 5) through states of
fewer than `5 * 2 ^ 28` order items, the count of the order is below its
capacity and the capacity is 5 times a power of two; the store of a new order
item, at slot `count`, starts from such a state and, when it brings the count
to less than `5 * 2 ^ 28`, leaves one.  The menu made by `makeMenu` has its
count at most its capacity and a capacity of 5 times a power of two; loading
keeps this at the head of every pass that starts with fewer than `5 * 2 ^ 28`
items, where after the capacity check the slot `count` that the pass writes
is below the capacity, and for the menu that `readMenuItems` returns when it
holds at most `5 * 2 ^ 28` items. -/
theorem capacity_invariant :
    (∀ (fmt : FloatFmt) (menu : Menu) (lines : List (List Char)),
      smallRun fmt menu initialOrder lines →
        orderInv (runLines fmt menu initialOrder lines).2)
    ∧ (∀ (o : Order) (m : MenuItem) (q : Int), orderInv o →
        o.list.length + 1 < CAPACITY_LIMIT →
          (o.list.length : Int) < o.capacity ∧ orderInv (pushOrder o m q))
    ∧ menuInv makeMenu
    ∧ (∀ (menu : Menu) (content : List Char) (fuel : Nat), menuInv menu →
        ∀ m ∈ loadPasses fuel menu content, m.list.length < CAPACITY_LIMIT →
          menuInv m ∧ ((growMenu m).list.length : Int) < (growMenu m).capacity)
    ∧ (∀ (menu m1 : Menu) (content : List Char), menuInv menu →
        readMenuItems menu content = some (Loaded.menu m1) →
          m1.list.length ≤ CAPACITY_LIMIT → menuInv m1) := by
  have h0 : orderInv initialOrder := ⟨by decide, 0, by decide⟩
  refine ⟨fun fmt menu lines hrun => runLines_inv fmt lines menu initialOrder h0 hrun,
    fun o m q h hs => ⟨h.1, pushOrder_inv o m q h hs⟩, ⟨by decide, 0, by decide⟩,
    fun menu content fuel h => loadPasses_inv fuel menu content (fun _ => h),
    fun menu m1 content h hr hs => readMenuLoop_inv _ menu m1 content (fun _ => h) hr hs⟩

theorem capacity_invariant_witness :
    smallRun floatFmt twoMenu initialOrder shortSession
    ∧ orderInv (runLines floatFmt twoMenu initialOrder shortSession).2 :=
  ⟨by decide, capacity_invariant.1 floatFmt twoMenu shortSession (by decide)⟩

/-! ## A file that overflows the capacity -/

theorem bigId_char (d : Nat) (h : d < 192) :
    isspace (Char.ofNat (33 + d)) = false ∧ Char.ofNat (33 + d) ≠ '\x00'
    ∧ (Char.ofNat (33 + d)).toNat = 33 + d := by
  revert d
  decide

theorem bigId_digits (i : Nat) (h : i < CAPACITY_LIMIT + 1) :
    i / 7077888 < 192 ∧ i / 36864 % 192 < 192 ∧ i / 192 % 192 < 192 ∧ i % 192 < 192 := by
  unfold CAPACITY_LIMIT at h
  omega

theorem bigId_injective (i j : Nat) (hi : i < CAPACITY_LIMIT + 1) (hj : j < CAPACITY_LIMIT + 1)
    (h : bigId i = bigId j) : i = j := by
  obtain ⟨a1, a2, a3, a4⟩ := bigId_digits i hi
  obtain ⟨b1, b2, b3, b4⟩ := bigId_digits j hj
  unfold bigId at h
  simp only [List.cons.injEq, and_true] at h
  obtain ⟨h1, h2, h3, h4⟩ := h
  have e1 := congrArg Char.toNat h1
  have e2 := congrArg Char.toNat h2
  have e3 := congrArg Char.toNat h3
  have e4 := congrArg Char.toNat h4
  rw [(bigId_char _ a1).2.2, (bigId_char _ b1).2.2] at e1
  rw [(bigId_char _ a2).2.2, (bigId_char _ b2).2.2] at e2
  rw [(bigId_char _ a3).2.2, (bigId_char _ b3).2.2] at e3
  rw [(bigId_char _ a4).2.2, (bigId_char _ b4).2.2] at e4
  omega

theorem bigItem_valid (i : Nat) (h : i < CAPACITY_LIMIT + 1) : validItem (bigItem i) := by
  obtain ⟨a1, a2, a3, a4⟩ := bigId_digits i h
  have c1 := bigId_char _ a1
  have c2 := bigId_char _ a2
  have c3 := bigId_char _ a3
  have c4 := bigId_char _ a4
  have hsp : ∀ c ∈ bigId i, isspace c = false := by
    intro c hc
    unfold bigId at hc
    simp only [List.mem_cons, List.mem_singleton, List.not_mem_nil, or_false] at hc
    rcases hc with rfl | rfl | rfl | rfl
    · exact c1.1
    · exact c2.1
    · exact c3.1
    · exact c4.1
  have hnul : '\x00' ∉ bigId i := by
    intro hc
    unfold bigId at hc
    simp only [List.mem_cons, List.mem_singleton, List.not_mem_nil, or_false] at hc
    rcases hc with e | e | e | e
    · exact c1.2.1 e.symm
    · exact c2.2.1 e.symm
    · exact c3.2.1 e.symm
    · exact c4.2.1 e.symm
  have hrest : 1 ≤ "c".toList.length ∧ "c".toList.length ≤ 15
      ∧ (∀ c ∈ "c".toList, isspace c = false) ∧ (0 : Int) < 1 ∧ (1 : Int) ≤ INT_MAX
      ∧ 1 ≤ "x".toList.length ∧ "x".toList.length ≤ 20 ∧ "x".toList.head? ≠ some ' '
      ∧ '\n' ∉ "x".toList ∧ EOFchar ∉ "x".toList ∧ '\x00' ∉ "c".toList ∧ '\x00' ∉ "x".toList
      ∧ "x".toList.length ≤ 4 + "c".toList.length + (showInt 1).length := by decide
  obtain ⟨r1, r2, r3, r4, r5, r6, r7, r8, r9, r10, r11, r12, r13⟩ := hrest
  exact ⟨⟨rfl, hsp, r1, r2, r3, r4, r5, r6, r7, r8, r9⟩, r10, hnul, r11, r12, r13⟩

theorem bigItems_nodup : (bigItems.map MenuItem.id).Nodup := by
  unfold bigItems
  rw [List.map_map]
  apply List.Nodup.map_on
  · intro i hi j hj hij
    exact bigId_injective i j (List.mem_range.mp hi) (List.mem_range.mp hj) hij
  · exact List.nodup_range _

/-- Loading the records written for valid items with fresh ids, the last of
which is read when the menu holds `CAPACITY_LIMIT` items, comes to the head
of a pass with that count and that capacity. -/
theorem loadPasses_full (items : List MenuItem) (fuel : Nat) (menu : Menu) (rest : List Char)
    (hv : ∀ it ∈ items, validItem it)
    (hnd : (menu.list.map MenuItem.id ++ items.map MenuItem.id).Nodup)
    (hinv : menuInv menu) (hcap : menu.capacity ≤ CAPACITY_LIMIT) (hne : items ≠ [])
    (hcount : menu.list.length + items.length = CAPACITY_LIMIT + 1) :
    ∃ m ∈ loadPasses (items.length + fuel) menu (menuFile items ++ rest),
      m.list.length = CAPACITY_LIMIT ∧ m.capacity = CAPACITY_LIMIT := by
  induction items generalizing menu with
  | nil => exact absurd rfl hne
  | cons it t ih =>
    have hvit : validItem it := hv it (List.mem_cons_self _ _)
    have hvt : ∀ x ∈ t, validItem x := fun x hx => hv x (List.mem_cons_of_mem _ hx)
    have hshape : menuFile (it :: t) ++ rest = recordLine it ++ '\n' :: (menuFile t ++ rest) := by
      simp [menuFile, joinLines]
    have hfuel : (it :: t).length + fuel = (t.length + fuel) + 1 := by simp; omega
    have hnew : it.id ∉ (growMenu menu).list.map MenuItem.id := by
      rw [growMenu_list]
      intro hmem
      rw [List.map_cons, List.nodup_append] at hnd
      exact hnd.2.2 hmem (List.mem_cons_self _ _)
    rw [hshape, hfuel, loadPasses, readLine_terminated _ _ (recordLine_no_newline it hvit),
      cstr_of_no_nul _ (recordLine_no_nul it hvit)]
    simp only
    rw [parseRecord_recordLine _ it hvit hnew]
    simp only
    by_cases ht : t = []
    · subst ht
      simp only [List.length_cons, List.length_nil] at hcount
      refine ⟨menu, List.mem_cons_self _ _, by omega, ?_⟩
      have := hinv.1
      omega
    · have hlt : menu.list.length < CAPACITY_LIMIT := by
        have : 0 < t.length := List.length_pos.mpr ht
        simp only [List.length_cons] at hcount
        omega
      have hnd2 : (({ (growMenu menu) with list := (growMenu menu).list ++ [it] } : Menu).list.map
          MenuItem.id ++ t.map MenuItem.id).Nodup := by
        simpa [growMenu_list] using hnd
      have hinv2 := (growMenu_inv menu hinv hlt).2 it
      have hcap2 : ({ (growMenu menu) with list := (growMenu menu).list ++ [it] } : Menu).capacity
          ≤ CAPACITY_LIMIT := by
        show (growMenu menu).capacity ≤ CAPACITY_LIMIT
        unfold growMenu
        split
        · obtain ⟨hle, k, hk⟩ := hinv
          unfold CAPACITY_LIMIT at hlt ⊢
          obtain ⟨h1, h2⟩ := double_capacity menu.capacity k hk (by omega)
          have h3 : toInt32 (menu.capacity * 2) = menu.capacity * 2 := by
            rw [h1, hk, pow_succ]; ring
          simp only
          rw [h3]
          exact_mod_cast h2
        · exact hcap
      have hcount2 : ({ (growMenu menu) with list := (growMenu menu).list ++ [it] } : Menu).list.length
          + t.length = CAPACITY_LIMIT + 1 := by
        simp only [List.length_append, List.length_singleton, growMenu_list]
        simp only [List.length_cons] at hcount
        omega
      obtain ⟨m, hm, h1, h2⟩ := ih _ hvt hnd2 hinv2 hcap2 ht hcount2
      exact ⟨m, List.mem_cons_of_mem _ hm, h1, h2⟩

/-- Claim C22, counterexample.  The file of `5 * 2 ^ 28 + 1` records
`<id> c 1 x` with pairwise-distinct ids is a valid menu file.  Loading it
into the empty menu comes to the head of a pass with `5 * 2 ^ 28` items and
that capacity; there the capacity check doubles the capacity, which as an
`int` becomes `-1610612736`, and the slot `count` that the pass writes is not
below it. -/
theorem capacity_overflows :
    (∀ it ∈ bigItems, validItem it) ∧ (bigItems.map MenuItem.id).Nodup
    ∧ bigItems.length = 1342177281
    ∧ ∃ m ∈ loadPasses ((menuFile bigItems).length + 1) makeMenu (menuFile bigItems),
        m.list.length = 1342177280 ∧ m.capacity = 1342177280
        ∧ (growMenu m).capacity = -1610612736
        ∧ ¬ (((growMenu m).list.length : Int) < (growMenu m).capacity) := by
  have hv : ∀ it ∈ bigItems, validItem it := by
    intro it hit
    unfold bigItems at hit
    obtain ⟨i, hi, rfl⟩ := List.mem_map.mp hit
    exact bigItem_valid i (List.mem_range.mp hi)
  have hlen : bigItems.length = 1342177281 := by
    unfold bigItems CAPACITY_LIMIT
    rw [List.length_map, List.length_range]
  have hle : ∀ items : List MenuItem, items.length ≤ (menuFile items).length := by
    intro items
    induction items with
    | nil => simp
    | cons a t ih => simp [menuFile, joinLines] at ih ⊢; omega
  obtain ⟨k, hk⟩ : ∃ k, (menuFile bigItems).length + 1 = bigItems.length + k :=
    ⟨(menuFile bigItems).length + 1 - bigItems.length, by have := hle bigItems; omega⟩
  have hne : bigItems ≠ [] := by
    intro e
    rw [e] at hlen
    simp at hlen
  obtain ⟨m, hm, h1, h2⟩ := loadPasses_full bigItems k makeMenu [] hv
    (by
      show ([] ++ bigItems.map MenuItem.id).Nodup
      rw [List.nil_append]
      exact bigItems_nodup) ⟨by decide, 0, by decide⟩ (by decide) hne
    (by rw [hlen]; rfl)
  rw [List.append_nil, ← hk] at hm
  unfold CAPACITY_LIMIT at h1 h2
  refine ⟨hv, bigItems_nodup, hlen, m, hm, h1, by exact_mod_cast h2, ?_, ?_⟩
  · unfold growMenu
    rw [if_pos (by rw [h1, h2])]
    simp only
    rw [h2]
    decide
  · unfold growMenu
    rw [if_pos (by rw [h1, h2])]
    simp only
    rw [h1, h2]
    decide

/-! ## Rounding -/

/-- The rounded quotient is within half a unit of the quotient. -/
theorem roundDiv_near (n d : Nat) (hd : 0 < d) :
    2 * (roundDiv n d * d) ≤ 2 * n + d ∧ 2 * n ≤ 2 * (roundDiv n d * d) + d := by
  have hn : d * (n / d) + n % d = n := Nat.div_add_mod n d
  have hr : n % d < d := Nat.mod_lt n hd
  unfold roundDiv
  split_ifs with h
  · rw [Nat.add_mul, Nat.mul_comm (n / d) d]
    rcases h with h | ⟨h, _⟩ <;> omega
  · rw [Nat.mul_comm (n / d) d]
    have h1 : ¬ d < 2 * (n % d) := fun e => h (Or.inl e)
    omega

/-- A number strictly within half a unit of the quotient is the rounded quotient. -/
theorem roundDiv_unique (n d t : Nat) (h1 : 2 * n < 2 * (t * d) + d)
    (h2 : 2 * (t * d) < 2 * n + d) : roundDiv n d = t := by
  have hd : 0 < d := by
    rcases Nat.eq_zero_or_pos d with e | e
    · subst e; simp at h1
    · exact e
  have hn : d * (n / d) + n % d = n := Nat.div_add_mod n d
  have hr : n % d < d := Nat.mod_lt n hd
  have hq : t = n / d ∨ t = n / d + 1 := by
    by_contra hne
    rw [not_or] at hne
    rcases Nat.lt_or_ge t (n / d) with hlt | hge
    · have : (t + 1) * d ≤ (n / d) * d := Nat.mul_le_mul_right d hlt
      rw [Nat.add_mul, Nat.mul_comm (n / d) d] at this
      omega
    · have hge2 : n / d + 2 ≤ t := by omega
      have : (n / d + 2) * d ≤ t * d := Nat.mul_le_mul_right d hge2
      rw [Nat.add_mul, Nat.mul_comm (n / d) d] at this
      omega
  unfold roundDiv
  rcases hq with hq | hq
  · rw [hq, Nat.mul_comm (n / d) d] at h1
    rw [if_neg, hq]
    rintro (h | ⟨h, _⟩) <;> omega
  · rw [hq, Nat.add_mul, Nat.mul_comm (n / d) d] at h2
    rw [if_pos, hq]
    left; omega

/-- The error of rounding to `p` bits: when the quotient is below
`2 ^ (p + e)`, the rounded value is within `2 ^ e / 2` of it. -/
theorem roundToFuel_near (p : Nat) (hp : 1 ≤ p) (n : Nat) :
    ∀ (fuel d e : Nat), 0 < d → n / d ≤ fuel → n < d * 2 ^ (p + e) →
      2 * (roundToFuel p fuel n d * d) ≤ 2 * n + d * 2 ^ e
      ∧ 2 * n ≤ 2 * (roundToFuel p fuel n d * d) + d * 2 ^ e := by
  intro fuel
  induction fuel with
  | zero =>
    intro d e hd _ _
    obtain ⟨h1, h2⟩ := roundDiv_near n d hd
    have : d ≤ d * 2 ^ e := Nat.le_mul_of_pos_right d (by positivity)
    unfold roundToFuel
    omega
  | succ fuel ih =>
    intro d e hd hfuel hlt
    unfold roundToFuel
    split_ifs with hsmall
    · obtain ⟨h1, h2⟩ := roundDiv_near n d hd
      have : d ≤ d * 2 ^ e := Nat.le_mul_of_pos_right d (by positivity)
      omega
    · have hge : 2 ^ p ≤ n / d := Nat.le_of_not_lt hsmall
      have hnd : d * 2 ^ p ≤ n := by
        have := Nat.mul_le_mul_left d hge
        have := Nat.mul_div_le n d
        omega
      have he : e ≠ 0 := by
        intro e0
        subst e0
        rw [Nat.add_zero] at hlt
        omega
      obtain ⟨e1, rfl⟩ := Nat.exists_eq_succ_of_ne_zero he
      have h2p : 2 ≤ 2 ^ p := by
        calc 2 = 2 ^ 1 := rfl
          _ ≤ 2 ^ p := Nat.pow_le_pow_right (by norm_num) hp
      have hfuel2 : n / (2 * d) ≤ fuel := by
        have e2 : n / (2 * d) = n / d / 2 := by
          rw [Nat.mul_comm 2 d, Nat.div_div_eq_div_mul]
        rw [e2]
        omega
      have hlt2 : n < 2 * d * 2 ^ (p + e1) := by
        have e5 : d * 2 ^ (p + (e1 + 1)) = 2 * d * 2 ^ (p + e1) := by
          rw [← Nat.add_assoc, pow_succ]; ring
        calc n < d * 2 ^ (p + (e1 + 1)) := hlt
          _ = 2 * d * 2 ^ (p + e1) := e5
      obtain ⟨h1, h2⟩ := ih (2 * d) e1 (by omega) hfuel2 hlt2
      have e3 : 2 * roundToFuel p fuel n (2 * d) * d = roundToFuel p fuel n (2 * d) * (2 * d) := by
        ring
      have e4 : d * 2 ^ (e1 + 1) = 2 * d * 2 ^ e1 := by rw [pow_succ]; ring
      rw [e3, e4]
      exact ⟨h1, h2⟩

theorem roundTo_near (p : Nat) (hp : 1 ≤ p) (n d e : Nat) (hd : 0 < d)
    (hlt : n < d * 2 ^ (p + e)) :
    2 * (roundTo p n d * d) ≤ 2 * n + d * 2 ^ e
    ∧ 2 * n ≤ 2 * (roundTo p n d * d) + d * 2 ^ e :=
  roundToFuel_near p hp n n d e hd (Nat.div_le_self n d) hlt

/-! ## The amounts written for small orders -/

/-- The `float` stored for `c / 100.0`, for `0 ≤ c` below `2 ^ k` dollars
(`k ≤ 16`), is within `2 ^ (k - 25) + 2 ^ (k - 54)` of the quotient (here in
units of `2 ^ (-149) / 100`). -/
theorem centsToFloat_near (k : Nat) (hk : k ≤ 16) (c : Nat) (hc : c < 100 * 2 ^ k) :
    ∃ f : Nat, centsToFloat (c : Int) = CFloat.finite (f : Int)
      ∧ 100 * f ≤ c * 2 ^ 149 + 50 * (2 ^ k * 2 ^ 125 + 2 ^ k * 2 ^ 96)
      ∧ c * 2 ^ 149 ≤ 100 * f + 50 * (2 ^ k * 2 ^ 125 + 2 ^ k * 2 ^ 96) := by
  have hP : 2 ^ k ≤ 2 ^ 16 := Nat.pow_le_pow_right (by norm_num) hk
  have hP0 : 0 < 2 ^ k := by positivity
  have e1 : 2 ^ (53 + (k + 1021)) = 2 ^ k * 2 ^ 1074 := by
    rw [show 53 + (k + 1021) = k + 1074 by omega, pow_add]
  have e2 : 2 ^ (24 + (k + 125)) = 2 ^ k * 2 ^ 149 := by
    rw [show 24 + (k + 125) = k + 149 by omega, pow_add]
  have e3 : 2 ^ (k + 1021) = 2 ^ k * 2 ^ 1021 := pow_add 2 k 1021
  have e4 : 2 ^ (k + 125) = 2 ^ k * 2 ^ 125 := pow_add 2 k 125
  obtain ⟨d1, d2⟩ := roundTo_near 53 (by norm_num) (c * 2 ^ 1074) 100 (k + 1021) (by norm_num)
    (by rw [e1]; generalize 2 ^ k = P at *; omega)
  rw [e3] at d1 d2
  have hd : roundTo 53 (c * 2 ^ 1074) 100 < 2 ^ 925 * 2 ^ (24 + (k + 125)) := by
    rw [e2]; generalize 2 ^ k = P at *; omega
  obtain ⟨f1, f2⟩ := roundTo_near 24 (by norm_num) (roundTo 53 (c * 2 ^ 1074) 100) (2 ^ 925)
    (k + 125) (by positivity) hd
  rw [e4] at f1 f2
  refine ⟨roundTo 24 (roundTo 53 (c * 2 ^ 1074) 100) (2 ^ 925), ?_, ?_, ?_⟩
  · unfold centsToFloat
    simp only [Int.natAbs_ofNat]
    rw [if_neg, if_neg, if_neg]
    · exact Int.not_lt.mpr (Int.ofNat_nonneg c)
    · generalize 2 ^ k = P at *; omega
    · generalize 2 ^ k = P at *; omega
  · generalize 2 ^ k = P at *; omega
  · generalize 2 ^ k = P at *; omega

/-- The sum of two `float`s that are not negative and add up to less than
`2 ^ k` dollars is within `2 ^ (k - 25)` of the exact sum. -/
theorem add_near (k : Nat) (hk : k ≤ 16) (a f : Nat) (hs : a + f < 2 ^ k * 2 ^ 149) :
    ∃ r : Nat, CFloat.add (CFloat.finite (a : Int)) (CFloat.finite (f : Int))
        = CFloat.finite (r : Int)
      ∧ r ≤ a + f + 2 ^ k * 2 ^ 124 ∧ a + f ≤ r + 2 ^ k * 2 ^ 124 := by
  have hP : 2 ^ k ≤ 2 ^ 16 := Nat.pow_le_pow_right (by norm_num) hk
  have e2 : 2 ^ (24 + (k + 125)) = 2 ^ k * 2 ^ 149 := by
    rw [show 24 + (k + 125) = k + 149 by omega, pow_add]
  have e4 : 2 ^ (k + 125) = 2 ^ k * 2 ^ 125 := pow_add 2 k 125
  obtain ⟨f1, f2⟩ := roundTo_near 24 (by norm_num) (a + f) 1 (k + 125) (by norm_num)
    (by rw [e2]; omega)
  rw [e4] at f1 f2
  have habs : ((a : Int) + (f : Int)).natAbs = a + f := by
    rw [← Nat.cast_add]; exact Int.natAbs_ofNat _
  have hnn : ¬ ((a : Int) + (f : Int) < 0) := by omega
  refine ⟨roundTo 24 (a + f) 1, ?_, ?_, ?_⟩
  · unfold CFloat.add
    simp only [habs]
    rw [if_neg, if_neg hnn]
    generalize 2 ^ k = P at *; omega
  · generalize 2 ^ k = P at *; omega
  · generalize 2 ^ k = P at *; omega

/-- The `float` sum of amounts that are not negative, below `2 ^ k` dollars
in all, stays within `G` (in units of `2 ^ (-149) / 100`) per amount of the
exact sum. -/
theorem foldl_near (k : Nat) (hk : k ≤ 16) (G : Nat)
    (hG : G = 50 * (2 ^ k * 2 ^ 126 + 2 ^ k * 2 ^ 96)) :
    ∀ (ns : List Nat) (a t e : Nat),
      100 * a ≤ t * 2 ^ 149 + e → t * 2 ^ 149 ≤ 100 * a + e →
      e + ns.length * G < 2 ^ 148 → t + ns.sum < 100 * 2 ^ k →
      ∃ r : Nat,
        (ns.map Int.ofNat).foldl (fun s c => CFloat.add s (centsToFloat c))
            (CFloat.finite (a : Int)) = CFloat.finite (r : Int)
        ∧ 100 * r ≤ (t + ns.sum) * 2 ^ 149 + (e + ns.length * G)
        ∧ (t + ns.sum) * 2 ^ 149 ≤ 100 * r + (e + ns.length * G) := by
  intro ns
  induction ns with
  | nil =>
    intro a t e h1 h2 _ _
    exact ⟨a, rfl, by simpa using h1, by simpa using h2⟩
  | cons n ns ih =>
    intro a t e h1 h2 h3 h4
    have hP : 2 ^ k ≤ 2 ^ 16 := Nat.pow_le_pow_right (by norm_num) hk
    simp only [List.length_cons, List.sum_cons] at h3 h4
    have hmul : (ns.length + 1) * G = ns.length * G + G := by ring
    rw [hmul] at h3
    obtain ⟨f, hf, f1, f2⟩ := centsToFloat_near k hk n (by omega)
    obtain ⟨r, hr, r1, r2⟩ := add_near k hk a f (by
      generalize 2 ^ k = P at *
      generalize ns.length * G = X at *
      omega)
    obtain ⟨r', hr', r1', r2'⟩ := ih r (t + n) (e + G)
      (by generalize 2 ^ k = P at *; generalize ns.length * G = X at *; omega)
      (by generalize 2 ^ k = P at *; generalize ns.length * G = X at *; omega)
      (by omega) (by omega)
    refine ⟨r', ?_, ?_, ?_⟩
    · rw [List.map_cons, List.foldl_cons, show Int.ofNat n = (n : Int) from rfl, hf, hr]
      exact hr'
    · simp only [List.length_cons, List.sum_cons]
      rw [hmul]
      generalize ns.length * G = X at *
      omega
    · simp only [List.length_cons, List.sum_cons]
      rw [hmul]
      generalize ns.length * G = X at *
      omega

theorem sum_map_ofNat (ns : List Nat) : (ns.map Int.ofNat).sum = ((ns.sum : Nat) : Int) := by
  induction ns with
  | nil => rfl
  | cons n ns ih =>
    rw [List.map_cons, List.sum_cons, List.sum_cons, ih]
    push_cast
    rfl

theorem map_ofNat_toNat (cs : List Int) (hpos : ∀ c ∈ cs, 0 ≤ c) :
    (cs.map Int.toNat).map Int.ofNat = cs := by
  induction cs with
  | nil => rfl
  | cons c cs ih =>
    have hc : 0 ≤ c := hpos c (List.mem_cons_self _ _)
    have ht : ∀ x ∈ cs, 0 ≤ x := fun x hx => hpos x (List.mem_cons_of_mem _ hx)
    rw [List.map_cons, List.map_cons, ih ht]
    congr 1
    exact Int.toNat_of_nonneg hc

theorem printFloat_of_near (r t : Nat) (h1 : 100 * r < t * 2 ^ 149 + 2 ^ 148)
    (h2 : t * 2 ^ 149 < 100 * r + 2 ^ 148) :
    printFloat (CFloat.finite (r : Int)) = showCents (t : Int) := by
  have hq : roundDiv (100 * r) (2 ^ 149) = t := roundDiv_unique _ _ t (by omega) (by omega)
  have hr : ¬ ((r : Int) < 0) := by omega
  have ht : ¬ ((t : Int) < 0) := by omega
  unfold printFloat showCents
  simp only [Int.natAbs_ofNat, hq, if_neg hr, if_neg ht]

/-- For amounts in cents that are not negative, the text written for their
`float` sum is the text of their exact sum to two decimal places, when the
sum is below `2 ^ k` dollars and at most `65536 / 2 ^ k` amounts are added. -/
theorem floatFmt_exact (cs : List Int) (k : Nat) (hpos : ∀ c ∈ cs, 0 ≤ c)
    (hsum : cs.sum < 100 * 2 ^ k) (hlen : cs.length * 2 ^ k ≤ 65536) :
    floatFmt cs = showCents cs.sum := by
  cases hcs : cs with
  | nil => decide
  | cons c0 cs0 =>
    rw [← hcs]
    have hlen1 : 1 ≤ cs.length := by rw [hcs]; simp
    have hP1 : 2 ^ k ≤ cs.length * 2 ^ k := Nat.le_mul_of_pos_left _ hlen1
    have hk : k ≤ 16 := by
      have h16 : 2 ^ k ≤ 2 ^ 16 := by
        have : (2 : Nat) ^ 16 = 65536 := by norm_num
        omega
      exact (Nat.pow_le_pow_iff_right (by norm_num)).mp h16
    have hmap := map_ofNat_toNat cs hpos
    have hsum2 : cs.sum = (((cs.map Int.toNat).sum : Nat) : Int) := by
      rw [← sum_map_ofNat, hmap]
    have hlen2 : (cs.map Int.toNat).length = cs.length := List.length_map _ _
    have hbound : 0 + (cs.map Int.toNat).length * (50 * (2 ^ k * 2 ^ 126 + 2 ^ k * 2 ^ 96))
        < 2 ^ 148 := by
      rw [hlen2]
      have e : cs.length * (50 * (2 ^ k * 2 ^ 126 + 2 ^ k * 2 ^ 96))
          = 50 * (cs.length * 2 ^ k * 2 ^ 126 + cs.length * 2 ^ k * 2 ^ 96) := by ring
      rw [e]
      generalize cs.length * 2 ^ k = Q at *
      omega
    have hsum3 : 0 + (cs.map Int.toNat).sum < 100 * 2 ^ k := by
      rw [hsum2] at hsum
      rw [Nat.zero_add]
      exact_mod_cast hsum
    obtain ⟨r, hr, r1, r2⟩ := foldl_near k hk _ rfl (cs.map Int.toNat) 0 0 0 (by simp) (by simp)
      hbound hsum3
    rw [hmap] at hr
    unfold floatFmt
    rw [show (CFloat.finite 0) = CFloat.finite ((0 : Nat) : Int) from rfl, hr, hsum2]
    apply printFloat_of_near
    · generalize (cs.map Int.toNat).length * (50 * (2 ^ k * 2 ^ 126 + 2 ^ k * 2 ^ 96)) = Z at *
      omega
    · generalize (cs.map Int.toNat).length * (50 * (2 ^ k * 2 ^ 126 + 2 ^ k * 2 ^ 96)) = Z at *
      omega

/-- Claim C15, amended.  Take an order of `n` items whose line totals
`cost * quantity` are not negative and add up to less than `2 ^ k` dollars,
where `n * 2 ^ k ≤ 65536` (at most 64 items below 1024 dollars in all, at
most 16 below 4096, one below 65536).  For every line whose first words are
`list` and `order`, the text written for an order of the items `rows`, a
permutation of the order, shows for every row its line total divided by 100,
to two decimal places, and on the `Total` row the sum of the line totals
divided by 100, to two decimal places (`0.00` for the empty order). -/
theorem total_row_exact (menu : Menu) (order : Order) (line t : List Char) (k : Nat)
    (h : tokenize line = (cList, cOrder, t))
    (hpos : ∀ it ∈ order.list, 0 ≤ it.menuItem.cost * it.quantity)
    (hsum : (order.list.map (fun it => it.menuItem.cost * it.quantity)).sum < 100 * 2 ^ k)
    (hlen : order.list.length * 2 ^ k ≤ 65536) :
    ∃ rows : List OrderItem, rows.Perm order.list
      ∧ (processLine floatFmt menu order line).out
        = some (line ++ ['\n']
            ++ "ID   Name                 Quantity Category        Cost\n".toList
            ++ (rows.map (fun it =>
                  padRight 5 it.menuItem.id ++ padRight 21 it.menuItem.name
                    ++ padLeft 8 (showInt it.quantity) ++ [' ']
                    ++ padRight 16 it.menuItem.category
                    ++ '$' :: showCents (it.menuItem.cost * it.quantity) ++ ['\n'])).flatten
            ++ "Total                                              $".toList
            ++ showCents (order.list.map (fun it => it.menuItem.cost * it.quantity)).sum
            ++ "\n\n".toList) := by
  have hperm := qsort_perm listOrderComp order.list
  refine ⟨qsort listOrderComp order.list, hperm, ?_⟩
  rw [processLine_list_order floatFmt menu order line t h]
  simp only [listOrderItems]
  by_cases hempty : (qsort listOrderComp order.list).length = 0
  · have hnil : qsort listOrderComp order.list = [] := List.length_eq_zero.mp hempty
    have hnil2 : order.list = [] := by
      have := hperm.length_eq
      rw [hnil] at this
      exact List.length_eq_zero.mp this.symm
    rw [if_pos hempty, hnil, hnil2]
    have e : "Total                                              $  0.00\n\n".toList
        = "Total                                              $".toList
          ++ showCents (([] : List OrderItem).map (fun it => it.menuItem.cost * it.quantity)).sum
          ++ "\n\n".toList := by decide
    rw [e]
    simp only [List.map_nil, List.flatten_nil, List.append_nil, List.append_assoc, orderHeader]
  · rw [if_neg hempty]
    have hlen1 : 1 ≤ order.list.length := by
      rw [← hperm.length_eq]; omega
    have hP1 : 1 * 2 ^ k ≤ order.list.length * 2 ^ k := Nat.mul_le_mul_right _ hlen1
    have hposm : ∀ c ∈ order.list.map (fun it => it.menuItem.cost * it.quantity), 0 ≤ c := by
      intro c hc
      obtain ⟨it, hit, rfl⟩ := List.mem_map.mp hc
      exact hpos it hit
    have hle : ∀ it ∈ order.list, it.menuItem.cost * it.quantity < 100 * 2 ^ k := by
      intro it hit
      have := List.single_le_sum hposm _ (List.mem_map.mpr ⟨it, hit, rfl⟩)
      omega
    have hk : (2 : Int) ^ k ≤ 65536 := by
      have : 2 ^ k ≤ 65536 := by omega
      exact_mod_cast this
    have hfit : ∀ it ∈ qsort listOrderComp order.list,
        inIntRange (it.menuItem.cost * it.quantity) := by
      intro it hit
      have h1 := hpos it (hperm.subset hit)
      have h2 := hle it (hperm.subset hit)
      unfold inIntRange INT_MIN INT_MAX
      omega
    obtain ⟨e1, e2⟩ := orderRow_of_inRange floatFmt _ hfit
    have e3 : (qsort listOrderComp order.list).map (fun it =>
          padRight 5 it.menuItem.id ++ padRight 21 it.menuItem.name
            ++ padLeft 8 (showInt it.quantity) ++ [' '] ++ padRight 16 it.menuItem.category
            ++ '$' :: floatFmt [it.menuItem.cost * it.quantity] ++ ['\n'])
        = (qsort listOrderComp order.list).map (fun it =>
          padRight 5 it.menuItem.id ++ padRight 21 it.menuItem.name
            ++ padLeft 8 (showInt it.quantity) ++ [' '] ++ padRight 16 it.menuItem.category
            ++ '$' :: showCents (it.menuItem.cost * it.quantity) ++ ['\n']) := by
      apply List.map_congr_left
      intro it hit
      have h1 := hpos it (hperm.subset hit)
      have h2 := hle it (hperm.subset hit)
      have := floatFmt_exact [it.menuItem.cost * it.quantity] k
        (by intro c hc; rw [List.mem_singleton.mp hc]; exact h1)
        (by simpa using h2) (by simpa using hP1.trans hlen)
      rw [this]
      simp
    have e4 : floatFmt ((qsort listOrderComp order.list).map
          (fun it => it.menuItem.cost * it.quantity))
        = showCents (order.list.map (fun it => it.menuItem.cost * it.quantity)).sum := by
      have hs : ((qsort listOrderComp order.list).map
          (fun it => it.menuItem.cost * it.quantity)).sum
          = (order.list.map (fun it => it.menuItem.cost * it.quantity)).sum :=
        (hperm.map _).sum_eq
      rw [← hs]
      apply floatFmt_exact _ k
      · intro c hc
        obtain ⟨it, hit, rfl⟩ := List.mem_map.mp hc
        exact hpos it (hperm.subset hit)
      · rw [hs]; exact hsum
      · rw [List.length_map, hperm.length_eq]; exact hlen
    rw [e1, e2, e3, e4]
    simp only [List.append_assoc, orderHeader]

theorem total_row_exact_witness :
    readMenuItems makeMenu "A001 Drinks 150 Cola\n".toList = some (Loaded.menu colaMenu)
    ∧ (processLine floatFmt colaMenu initialOrder "add A001 2".toList).order = twoColas
    ∧ (∃ rows : List OrderItem, rows.Perm twoColas.list
      ∧ (processLine floatFmt colaMenu twoColas "list order".toList).out
        = some ("list order".toList ++ ['\n']
            ++ "ID   Name                 Quantity Category        Cost\n".toList
            ++ (rows.map (fun it =>
                  padRight 5 it.menuItem.id ++ padRight 21 it.menuItem.name
                    ++ padLeft 8 (showInt it.quantity) ++ [' ']
                    ++ padRight 16 it.menuItem.category
                    ++ '$' :: showCents (it.menuItem.cost * it.quantity) ++ ['\n'])).flatten
            ++ "Total                                              $".toList
            ++ showCents (twoColas.list.map (fun it => it.menuItem.cost * it.quantity)).sum
            ++ "\n\n".toList))
    ∧ (processLine floatFmt colaMenu twoColas "list order".toList).out
        = some ("list order\n".toList
            ++ "ID   Name                 Quantity Category        Cost\n".toList
            ++ "A001 Cola                        2 Drinks          $  3.00\n".toList
            ++ "Total                                              $  3.00\n\n".toList) :=
  ⟨by decide, by decide,
    total_row_exact colaMenu twoColas "list order".toList [] 16 (by decide) (by decide)
      (by decide) (by decide),
    by decide⟩

/-- Claim C15, counterexample.  With the menu of the records
`A001 Drinks 13107201 Cola` and `B002 Drinks 13107201 Tea`, after
`add A001 1` and `add B002 1` the listing shows `131072.02` on both rows and
`262144.03` on the `Total` row: neither the sum of the line totals divided by
100, which is `262144.02`, nor the sum of the amounts shown on the rows,
`262144.04`. -/
theorem total_row_inexact :
    readMenuItems makeMenu "A001 Drinks 13107201 Cola\nB002 Drinks 13107201 Tea\n".toList
      = some (Loaded.menu richMenu)
    ∧ (runLines floatFmt richMenu initialOrder ["add A001 1".toList, "add B002 1".toList]).2
      = richOrder
    ∧ (processLine floatFmt richMenu richOrder "list order".toList).out
      = some ("list order\n".toList
          ++ "ID   Name                 Quantity Category        Cost\n".toList
          ++ "A001 Cola                        1 Drinks          $131072.02\n".toList
          ++ "B002 Tea                         1 Drinks          $131072.02\n".toList
          ++ "Total                                              $262144.03\n\n".toList)
    ∧ showCents (richOrder.list.map (fun it => it.menuItem.cost * it.quantity)).sum
      = "262144.02".toList
    ∧ showCents (13107202 + 13107202) = "262144.04".toList := by
  decide

end Kiosk
